import Mathlib

/-
Verification of the data-access layer of the finance-edu-platform repository,
embedded from src/utils/mcp_client.py (class MCPClient).

The embedding models:
  * JSON-like parameter/payload values (`PValue`) — the values accepted by
    `json.dumps` at the call sites of `_call_api` (strings, ints, bools,
    lists, string-keyed dicts; float parameters are outside the model);
  * Python dict operations used by the cache (`dictGet`, `dictSet`);
  * `_get_cache_key` as `endpoint ++ ":" ++ json.dumps(params, sort_keys=True)`
    with a faithful character-level model of CPython `json.dumps` under its
    default options (ensure_ascii=True, separators (", ", ": "));
  * the cache read/write (`_get_from_cache`, `_set_cache`, `_cache_ttl`);
  * `_call_api` as a function of the cache state, the current time and a
    `Transport` oracle describing the single network interaction of the call,
    where the `try` block is modelled by an `Except`-valued `attempt_api`
    whose errors are exactly the exception classes caught by the source
    (`requests.exceptions.RequestException`, `json.JSONDecodeError`);
  * `_get_fallback_data` and the fund-detail truncation in `get_funds_detail`.

Time stamps are integers (`time.time()` readings); one reading per
`_call_api` invocation.
-/

namespace Mcp

/-- JSON-like value: the type of parameter values handed to `json.dumps`
and of parsed response payloads.  Strings, integers, booleans, lists and
string-keyed dicts cover the `_call_api` payloads.  The float parameters
that some call sites also pass (`get_asset_allocation_plan`'s
expected_return / expected_drawdown, `analyze_portfolio_risk`'s and
`monte_carlo_simulate`'s weights) are NOT modelled: their IEEE-754
equality and shortest round-trip `repr` are outside this embedding.
They only widen the divergence recorded at claim C4 between Python `==`
and the fingerprint: Python has `0.0 == -0.0` and `1 == 1.0`, yet
`json.dumps` writes the distinct texts `0.0` / `-0.0` / `1` / `1.0`. -/
inductive PValue where
  | str (s : String)
  | int (i : Int)
  | bool (b : Bool)
  | list (xs : List PValue)
  | obj (kvs : List (String × PValue))

mutual

/-- Boolean structural equality on `PValue` (used to build `DecidableEq`). -/
def pvBeq : PValue → PValue → Bool
  | .str a, .str b => a == b
  | .int a, .int b => a == b
  | .bool a, .bool b => a == b
  | .list a, .list b => pvBeqL a b
  | .obj a, .obj b => pvBeqF a b
  | _, _ => false

/-- Pointwise `pvBeq` on lists. -/
def pvBeqL : List PValue → List PValue → Bool
  | [], [] => true
  | a :: as, b :: bs => pvBeq a b && pvBeqL as bs
  | _, _ => false

/-- Pointwise `pvBeq` on key/value lists. -/
def pvBeqF : List (String × PValue) → List (String × PValue) → Bool
  | [], [] => true
  | (k, a) :: as, (k2, b) :: bs => k == k2 && pvBeq a b && pvBeqF as bs
  | _, _ => false

end

mutual

theorem pvBeq_iff : ∀ (a b : PValue), pvBeq a b = true ↔ a = b
  | .str a, .str b => by simp [pvBeq]
  | .int a, .int b => by simp [pvBeq]
  | .bool a, .bool b => by simp [pvBeq]
  | .list a, .list b => by simp [pvBeq, pvBeqL_iff a b]
  | .obj a, .obj b => by simp [pvBeq, pvBeqF_iff a b]
  | .str a, .int b => by simp [pvBeq]
  | .str a, .bool b => by simp [pvBeq]
  | .str a, .list b => by simp [pvBeq]
  | .str a, .obj b => by simp [pvBeq]
  | .int a, .str b => by simp [pvBeq]
  | .int a, .bool b => by simp [pvBeq]
  | .int a, .list b => by simp [pvBeq]
  | .int a, .obj b => by simp [pvBeq]
  | .bool a, .str b => by simp [pvBeq]
  | .bool a, .int b => by simp [pvBeq]
  | .bool a, .list b => by simp [pvBeq]
  | .bool a, .obj b => by simp [pvBeq]
  | .list a, .str b => by simp [pvBeq]
  | .list a, .int b => by simp [pvBeq]
  | .list a, .bool b => by simp [pvBeq]
  | .list a, .obj b => by simp [pvBeq]
  | .obj a, .str b => by simp [pvBeq]
  | .obj a, .int b => by simp [pvBeq]
  | .obj a, .bool b => by simp [pvBeq]
  | .obj a, .list b => by simp [pvBeq]

theorem pvBeqL_iff : ∀ (a b : List PValue), pvBeqL a b = true ↔ a = b
  | [], [] => by simp [pvBeqL]
  | a :: as, b :: bs => by simp [pvBeqL, pvBeq_iff a b, pvBeqL_iff as bs]
  | [], _ :: _ => by simp [pvBeqL]
  | _ :: _, [] => by simp [pvBeqL]

theorem pvBeqF_iff : ∀ (a b : List (String × PValue)), pvBeqF a b = true ↔ a = b
  | [], [] => by simp [pvBeqF]
  | (k, a) :: as, (k2, b) :: bs => by
    simp [pvBeqF, pvBeq_iff a b, pvBeqF_iff as bs, Prod.ext_iff]
  | [], _ :: _ => by simp [pvBeqF]
  | _ :: _, [] => by simp [pvBeqF]

end

instance : DecidableEq PValue := fun a b => decidable_of_iff _ (pvBeq_iff a b)

/- ---------------------------------------------------------------------
Python dict model: association list in insertion order.  Assignment to an
existing key keeps its position (CPython behaviour); a fresh key is
appended.  Lookup takes the (unique) binding of the key.
--------------------------------------------------------------------- -/

/-- `d[k]` lookup (`None` when absent). -/
def dictGet (k : String) : List (String × α) → Option α
  | [] => none
  | (k2, v) :: rest => if k2 = k then some v else dictGet k rest

/-- `d[k] = v` assignment: replace in place, else append. -/
def dictSet (k : String) (v : α) : List (String × α) → List (String × α)
  | [] => [(k, v)]
  | (k2, v2) :: rest => if k2 = k then (k, v) :: rest else (k2, v2) :: dictSet k v rest

/-- `k in d`. -/
def hasKey (k : String) : List (String × α) → Bool
  | [] => false
  | (k2, _) :: rest => k2 == k || hasKey k rest

/-- Keys are pairwise distinct (every Python dict satisfies this). -/
def noDupKeys : List (String × α) → Bool
  | [] => true
  | (k, _) :: rest => !hasKey k rest && noDupKeys rest

/-- Number of bindings of key `k`. -/
def countKey (k : String) (l : List (String × α)) : Nat :=
  (l.filter (fun p => p.1 == k)).length

mutual

/-- Well-formedness of a value: every object level has pairwise
distinct keys, as every value built from Python dicts does. -/
def wfB : PValue → Bool
  | .str _ => true
  | .int _ => true
  | .bool _ => true
  | .list xs => wfListB xs
  | .obj kvs => noDupKeys kvs && wfFieldsB kvs

/-- `wfB` on every element. -/
def wfListB : List PValue → Bool
  | [] => true
  | v :: vs => wfB v && wfListB vs

/-- `wfB` on every bound value. -/
def wfFieldsB : List (String × PValue) → Bool
  | [] => true
  | (_, v) :: kvs => wfB v && wfFieldsB kvs

end

mutual

/-- Equality of the JSON documents two values serialize to: identical
constructor (so `true` and `1` are distinct, as the texts `true` and `1`
are), identical atoms, pointwise equal lists, and object equality that is
insensitive to insertion order at every level (same size, every key of
the left side bound in the right side to a document-equal value).  This
is the equivalence the serialized request bodies realise; Python's own
`==` (`pyEqB` below) is strictly coarser. -/
def jsonEqB : PValue → PValue → Bool
  | .str a, .str b => a == b
  | .int a, .int b => a == b
  | .bool a, .bool b => a == b
  | .list a, .list b => jsonEqListB a b
  | .obj a, .obj b => a.length == b.length && jsonEqFieldsB a b
  | _, _ => false

/-- Pointwise `jsonEqB`. -/
def jsonEqListB : List PValue → List PValue → Bool
  | [], [] => true
  | a :: as, b :: bs => jsonEqB a b && jsonEqListB as bs
  | _, _ => false

/-- Every binding of the first list is matched (via lookup) in the second. -/
def jsonEqFieldsB : List (String × PValue) → List (String × PValue) → Bool
  | [], _ => true
  | (k, v) :: kvs, b =>
    (match dictGet k b with
     | some w => jsonEqB v w
     | none => false) && jsonEqFieldsB kvs b

end

mutual

/-- Python `==` on the modelled values.  Python compares booleans and
integers numerically — `True == 1` and `False == 0` — so `.bool` and
`.int` values cross-compare; strings compare as strings, lists
pointwise, and objects by Python dict equality (same size, every key of
the left side bound in the right side to an equal value, insertion order
irrelevant).  The float cross-equalities (`1 == 1.0`, `0.0 == -0.0`)
concern values outside the model (see `PValue`). -/
def pyEqB : PValue → PValue → Bool
  | .str a, .str b => a == b
  | .int a, .int b => a == b
  | .bool a, .bool b => a == b
  | .bool a, .int b => (if a then (1 : Int) else 0) == b
  | .int a, .bool b => a == (if b then (1 : Int) else 0)
  | .list a, .list b => pyEqListB a b
  | .obj a, .obj b => a.length == b.length && pyEqFieldsB a b
  | _, _ => false

/-- Pointwise `pyEqB`. -/
def pyEqListB : List PValue → List PValue → Bool
  | [], [] => true
  | a :: as, b :: bs => pyEqB a b && pyEqListB as bs
  | _, _ => false

/-- Every binding of the first list is matched (via lookup) in the second. -/
def pyEqFieldsB : List (String × PValue) → List (String × PValue) → Bool
  | [], _ => true
  | (k, v) :: kvs, b =>
    (match dictGet k b with
     | some w => pyEqB v w
     | none => false) && pyEqFieldsB kvs b

end

/- ---------------------------------------------------------------------
Character-level model of CPython `json.dumps(x, sort_keys=True)` with the
default options of the stdlib encoder: ensure_ascii=True, no indent,
item separator ", ", key separator ": ", and `sorted(dct.items())` for
the key order.
--------------------------------------------------------------------- -/

/-- The double-quote character. -/
def qu : Char := Char.ofNat 34

/-- The backslash character. -/
def bs : Char := Char.ofNat 92

/-- Lowercase hexadecimal digit (also used for decimal digits). -/
def hexDig (n : Nat) : Char := "0123456789abcdef".data.getD n (Char.ofNat 48)

/-- Four lowercase hex digits of a code unit below 0x10000. -/
def hexQuad (n : Nat) : List Char :=
  [hexDig (n / 4096 % 16), hexDig (n / 256 % 16), hexDig (n / 16 % 16), hexDig (n % 16)]

/-- `\uXXXX` escape of a code unit. -/
def uEsc (n : Nat) : List Char := bs :: 'u' :: hexQuad n

/-- Escape of one character inside a JSON string literal, after
`json.encoder.py_encode_basestring_ascii`: printable ASCII other than
quote and backslash is kept; quote, backslash and the control characters
BS/TAB/LF/FF/CR get two-character escapes; everything else becomes
`\uXXXX`, as a surrogate pair above the BMP. -/
def escC (c : Char) : List Char :=
  if c = qu then [bs, qu]
  else if c = bs then [bs, bs]
  else if 32 ≤ c.toNat && c.toNat ≤ 126 then [c]
  else if c.toNat = 8 then [bs, 'b']
  else if c.toNat = 9 then [bs, 't']
  else if c.toNat = 10 then [bs, 'n']
  else if c.toNat = 12 then [bs, 'f']
  else if c.toNat = 13 then [bs, 'r']
  else if c.toNat < 65536 then uEsc c.toNat
  else uEsc (55296 + (c.toNat - 65536) / 1024) ++ uEsc (56320 + (c.toNat - 65536) % 1024)

/-- Escape of a whole string body. -/
def escS : List Char → List Char
  | [] => []
  | c :: cs => escC c ++ escS cs

/-- JSON string literal. -/
def encStr (s : String) : List Char := qu :: (escS s.data ++ [qu])

/-- Decimal digits, with a structural fuel argument (any fuel above the
value suffices; `natDecAux_irrel` shows the fuel is irrelevant) so that
the kernel can evaluate the definition. -/
def natDecAux : Nat → Nat → List Char
  | 0, _ => []
  | fuel + 1, n =>
    if n < 10 then [hexDig n] else natDecAux fuel (n / 10) ++ [hexDig (n % 10)]

/-- Decimal digits of a natural number (Python `repr`). -/
def natDec (n : Nat) : List Char := natDecAux (n + 1) n

theorem natDecAux_irrel : ∀ (f1 f2 n : Nat), n < f1 → n < f2 →
    natDecAux f1 n = natDecAux f2 n := by
  intro f1
  induction f1 with
  | zero =>
    intro f2 n h1 _
    omega
  | succ f ih =>
    intro f2 n h1 h2
    cases f2 with
    | zero => omega
    | succ g =>
      simp only [natDecAux]
      by_cases h : n < 10
      · simp [h]
      · rw [if_neg h, if_neg h, ih g (n / 10) (by omega) (by omega)]

/-- The natural recursion equation of `natDec`. -/
theorem natDec_eq (n : Nat) :
    natDec n = if n < 10 then [hexDig n] else natDec (n / 10) ++ [hexDig (n % 10)] := by
  show natDecAux (n + 1) n = _
  by_cases h : n < 10
  · simp [natDecAux, h]
  · simp only [natDecAux, if_neg h]
    rw [natDecAux_irrel n (n / 10 + 1) (n / 10) (by omega) (by omega)]
    rfl

/-- Decimal representation of an integer (Python `repr`). -/
def intDec (i : Int) : List Char :=
  if i < 0 then '-' :: natDec (-i).toNat else natDec i.toNat

/-- Sorting of `dct.items()` by key (keys are pairwise distinct in a
dict, so the tuple comparison used by `sorted` only compares keys; like
Python's `sorted`, insertion sort is stable). -/
def sortFields (l : List (String × PValue)) : List (String × PValue) :=
  l.insertionSort (fun a b => a.1 ≤ b.1)

mutual

/-- Recursively sort every object level by key.  `json.dumps` with
`sort_keys=True` emits objects in sorted key order at every depth;
composing `encV` after `canon` models exactly that output. -/
def canon : PValue → PValue
  | .str s => .str s
  | .int i => .int i
  | .bool b => .bool b
  | .list xs => .list (canonList xs)
  | .obj kvs => .obj (sortFields (canonFields kvs))

/-- `canon` on every element. -/
def canonList : List PValue → List PValue
  | [] => []
  | v :: vs => canon v :: canonList vs

/-- `canon` on every bound value. -/
def canonFields : List (String × PValue) → List (String × PValue)
  | [] => []
  | (k, v) :: kvs => (k, canon v) :: canonFields kvs

end

mutual

/-- Serialization of one (already canonicalized) value. -/
def encV : PValue → List Char
  | .str s => encStr s
  | .int i => intDec i
  | .bool b => if b then ['t', 'r', 'u', 'e'] else ['f', 'a', 'l', 's', 'e']
  | .list xs => '[' :: (encItems xs ++ [']'])
  | .obj kvs => '{' :: (encFields kvs ++ ['}'])

/-- List elements joined by the default item separator ", ". -/
def encItems : List PValue → List Char
  | [] => []
  | [v] => encV v
  | v :: w :: vs => encV v ++ ',' :: ' ' :: encItems (w :: vs)

/-- Object fields `"key": value` joined by ", ". -/
def encFields : List (String × PValue) → List Char
  | [] => []
  | [(k, v)] => encStr k ++ ':' :: ' ' :: encV v
  | (k, v) :: f :: kvs => encStr k ++ ':' :: ' ' :: encV v ++ ',' :: ' ' :: encFields (f :: kvs)

end

/-- `json.dumps(params, sort_keys=True)` on a parameter dict. -/
def json_dumps_sorted (params : List (String × PValue)) : String :=
  ⟨encV (canon (.obj params))⟩

/-- `MCPClient._get_cache_key` (mcp_client.py lines 39-42):
`f"{endpoint}:{params_str}"` with `params_str = json.dumps(params, sort_keys=True)`. -/
def get_cache_key (endpoint : String) (params : List (String × PValue)) : String :=
  endpoint ++ ":" ++ json_dumps_sorted params

/- ---------------------------------------------------------------------
Cache and API-call model.
--------------------------------------------------------------------- -/

/-- The in-memory cache `self._cache`: cache key ↦ (data, timestamp). -/
abbrev Cache := List (String × (PValue × Int))

/-- `self._cache_ttl = 300` (mcp_client.py line 37) — a single constant,
used for every endpoint. -/
def cache_ttl : Int := 300

/-- `MCPClient._get_from_cache` (lines 44-50): returns the stored data
only when the entry exists and `time.time() - timestamp < self._cache_ttl`;
it never mutates the cache. -/
def get_from_cache (cache : Cache) (now : Int) (key : String) : Option PValue :=
  match dictGet key cache with
  | some (data, ts) => if now - ts < cache_ttl then some data else none
  | none => none

/-- `MCPClient._set_cache` (lines 52-54): `self._cache[cache_key] = (data, time.time())`. -/
def set_cache (cache : Cache) (now : Int) (key : String) (data : PValue) : Cache :=
  dictSet key (data, now) cache

/-- Outcome of the single network interaction attempted by `_call_api`:
either an HTTP response with a status code and a body (`some` parsed
JSON, or `none` when the body is not valid JSON), or a transport-level
failure (timeout, connection error, DNS, ...) raised as a
`requests.exceptions.RequestException`. -/
inductive Transport where
  | ok (status : Nat) (body : Option PValue)
  | netFail
  deriving DecidableEq

/-- The two exception classes caught by `_call_api`'s `except` clauses. -/
inductive ApiError where
  | requestException
  | jsonDecodeError
  deriving DecidableEq

/-- `response.raise_for_status()` raises exactly on 4xx/5xx statuses. -/
def raise_for_status (status : Nat) : Bool := 400 ≤ status && status < 600

/-- The `try` block of `_call_api` (lines 79-92) from the request onwards:
a transport failure raises `RequestException`; a 4xx/5xx status makes
`raise_for_status` raise `RequestException`; an unparseable body makes
`response.json()` raise `JSONDecodeError`; otherwise the parsed body is
returned — the success indicator inside the body is never examined. -/
def attempt_api : Transport → Except ApiError PValue
  | .netFail => .error .requestException
  | .ok status body =>
    if raise_for_status status then .error .requestException
    else
      match body with
      | none => .error .jsonDecodeError
      | some result => .ok result

/-- `MCPClient._get_fallback_data` (lines 102-109): a fixed substitute
dict, independent of endpoint and parameters. -/
def get_fallback_data (_endpoint : String) (_params : List (String × PValue)) : PValue :=
  .obj [("success", .bool false),
        ("message", .str "API暂时不可用，显示模拟数据"),
        ("data", .list [])]

/-- Result of one `_call_api` invocation: the returned dict, the cache
afterwards, and how many network requests were issued (0 or 1).
`_call_api` always returns a `PValue` — the `except` clauses of the
source absorb every error `attempt_api` can produce, so no exception
reaches the caller. -/
structure ApiOutcome where
  result : PValue
  cache : Cache
  netCalls : Nat
  deriving DecidableEq

/-- The part of `_call_api` after the cache check: issue the request
(`attempt_api`); on success store into the cache when
`use_cache and method == "POST"` and return the parsed body; on either
caught exception return the fallback data. -/
def call_api_net (cache : Cache) (now : Int) (endpoint method : String)
    (data : List (String × PValue)) (use_cache : Bool) (tr : Transport)
    (key : String) : ApiOutcome :=
  match attempt_api tr with
  | .ok result =>
    if use_cache && (method == "POST") then
      ⟨result, set_cache cache now key result, 1⟩
    else
      ⟨result, cache, 1⟩
  | .error _ => ⟨get_fallback_data endpoint data, cache, 1⟩

/-- `MCPClient._call_api` (lines 56-100): when `use_cache and method == "POST"`,
look the fingerprint up in the cache and return a live entry without any
network call; otherwise (or on a miss) run the network path. -/
def call_api (cache : Cache) (now : Int) (endpoint method : String)
    (data : List (String × PValue)) (use_cache : Bool) (tr : Transport) : ApiOutcome :=
  let key := get_cache_key endpoint data
  if use_cache && (method == "POST") then
    match get_from_cache cache now key with
    | some cached => ⟨cached, cache, 0⟩
    | none => call_api_net cache now endpoint method data use_cache tr key
  else call_api_net cache now endpoint method data use_cache tr key

/-- The fund-code list actually sent by `MCPClient.get_funds_detail`
(lines 166-168): more than 20 codes are silently cut to the first 20. -/
def funds_detail_codes (fund_codes : List String) : List String :=
  if fund_codes.length > 20 then fund_codes.take 20 else fund_codes

/-- `st.warning` is shown exactly when the list was truncated. -/
def funds_detail_warns (fund_codes : List String) : Bool := fund_codes.length > 20

/-- `MCPClient.get_funds_detail` (lines 155-173): truncate, then
`_call_api("BatchGetFundsDetail", data={"fundCodes": fund_codes})`. -/
def get_funds_detail (cache : Cache) (now : Int) (fund_codes : List String)
    (tr : Transport) : ApiOutcome :=
  call_api cache now "BatchGetFundsDetail" "POST"
    [("fundCodes", .list ((funds_detail_codes fund_codes).map .str))] true tr

/-- The `ttl` argument of the `@st.cache_data` decorator on each MCPClient
method, where present.  This Streamlit memoisation layer is distinct from
the response cache `self._cache`. -/
def st_cache_data_ttl : String → Option Nat
  | "search_funds" => some 300
  | "guess_fund_code" => some 300
  | "get_funds_detail" => some 300
  | "get_fund_nav_history" => some 300
  | "get_fund_performance" => some 300
  | "get_funds_holding" => some 300
  | "get_fund_diagnosis" => some 300
  | "get_asset_allocation_plan" => some 300
  | "analyze_portfolio_risk" => some 300
  | "get_funds_backtest" => some 300
  | "get_funds_correlation" => some 300
  | "diagnose_portfolio" => some 300
  | "monte_carlo_simulate" => some 300
  | "get_latest_quotations" => some 60
  | "search_hot_topic" => some 3600
  | "search_strategy" => some 300
  | "get_strategy_details" => some 300
  | _ => none

/-- Lookup of a field of an object payload (used to inspect results for
a `degraded` marker). -/
def obj_get (k : String) : PValue → Option PValue
  | .obj kvs => dictGet k kvs
  | _ => none

/- ---------------------------------------------------------------------
Dict lemmas.
--------------------------------------------------------------------- -/

theorem dictGet_dictSet_self (k : String) (v : α) (l : List (String × α)) :
    dictGet k (dictSet k v l) = some v := by
  induction l with
  | nil => simp [dictSet, dictGet]
  | cons p rest ih =>
    obtain ⟨k2, v2⟩ := p
    by_cases h : k2 = k <;> simp [dictSet, dictGet, h, ih]

theorem dictGet_dictSet_ne (k k2 : String) (hne : k2 ≠ k) (v : α) (l : List (String × α)) :
    dictGet k2 (dictSet k v l) = dictGet k2 l := by
  induction l with
  | nil => simp [dictSet, dictGet, Ne.symm hne]
  | cons p rest ih =>
    obtain ⟨k3, v3⟩ := p
    by_cases h : k3 = k
    · subst h
      simp [dictSet, dictGet, Ne.symm hne]
    · simp [dictSet, dictGet, h, ih]

theorem hasKey_dictSet_ne (k k2 : String) (hne : k2 ≠ k) (v : α) (l : List (String × α)) :
    hasKey k2 (dictSet k v l) = hasKey k2 l := by
  induction l with
  | nil => simp [dictSet, hasKey, Ne.symm hne]
  | cons p rest ih =>
    obtain ⟨k3, v3⟩ := p
    by_cases h : k3 = k
    · subst h
      simp [dictSet, hasKey]
    · simp [dictSet, hasKey, h, ih]

theorem noDupKeys_dictSet (k : String) (v : α) (l : List (String × α))
    (h : noDupKeys l = true) : noDupKeys (dictSet k v l) = true := by
  induction l with
  | nil => simp [dictSet, noDupKeys, hasKey]
  | cons p rest ih =>
    obtain ⟨k2, v2⟩ := p
    simp only [noDupKeys, Bool.and_eq_true, Bool.not_eq_true'] at h
    by_cases hk : k2 = k
    · subst hk
      simp [dictSet, noDupKeys, h.1, h.2]
    · simp [dictSet, hk, noDupKeys, hasKey_dictSet_ne k k2 hk, h.1, ih h.2]

theorem countKey_cons (k k2 : String) (v2 : α) (l : List (String × α)) :
    countKey k ((k2, v2) :: l) = (if k2 == k then 1 else 0) + countKey k l := by
  simp only [countKey, List.filter_cons]
  split <;> simp [List.length_cons, Nat.add_comm]

theorem hasKey_false_countKey (k : String) (l : List (String × α))
    (h : hasKey k l = false) : countKey k l = 0 := by
  induction l with
  | nil => rfl
  | cons p rest ih =>
    obtain ⟨k2, v2⟩ := p
    simp only [hasKey, Bool.or_eq_false_iff] at h
    rw [countKey_cons, h.1, ih h.2]
    simp

theorem noDupKeys_countKey_le_one (k : String) (l : List (String × α))
    (h : noDupKeys l = true) : countKey k l ≤ 1 := by
  induction l with
  | nil => simp [countKey]
  | cons p rest ih =>
    obtain ⟨k2, v2⟩ := p
    simp only [noDupKeys, Bool.and_eq_true, Bool.not_eq_true'] at h
    rw [countKey_cons]
    by_cases hk : (k2 == k) = true
    · have hk2 : k2 = k := by simpa using hk
      subst hk2
      rw [hasKey_false_countKey k2 rest h.1]
      simp [hk]
    · have hk2 : (k2 == k) = false := by simpa using hk
      rw [hk2]
      simpa using ih h.2

theorem countKey_dictSet_self (k : String) (v : α) (l : List (String × α))
    (h : noDupKeys l = true) : countKey k (dictSet k v l) = 1 := by
  induction l with
  | nil => simp [dictSet, countKey, List.filter]
  | cons p rest ih =>
    obtain ⟨k2, v2⟩ := p
    simp only [noDupKeys, Bool.and_eq_true, Bool.not_eq_true'] at h
    by_cases hk : k2 = k
    · subst hk
      have hset : dictSet k2 v ((k2, v2) :: rest) = (k2, v) :: rest := by simp [dictSet]
      rw [hset, countKey_cons, hasKey_false_countKey k2 rest h.1]
      simp
    · have hkb : (k2 == k) = false := by simpa using hk
      have hset : dictSet k v ((k2, v2) :: rest) = (k2, v2) :: dictSet k v rest := by
        simp [dictSet, hk]
      rw [hset, countKey_cons, hkb, ih h.2]
      simp

/- ---------------------------------------------------------------------
Claim theorems about the cache / fallback behaviour of `_call_api`.
--------------------------------------------------------------------- -/

/-- C1.  Whenever the network interaction of `_call_api` fails with one of
the errors the source catches — a transport error raised as
`requests.exceptions.RequestException` (timeout, connection error), a
4xx/5xx status raised by `raise_for_status`, or a body that fails to
parse as JSON (`json.JSONDecodeError`) — `_call_api` returns normally
with the fallback payload of `_get_fallback_data` and leaves the cache
untouched.  `call_api` is a total function into `ApiOutcome` (not an
`Except`), and `attempt_api` enumerates every exception the `try` block
can raise, so no exception propagates to the caller on these paths.
The second hypothesis says the network path is reached at all (the call
is not served from the cache). -/
theorem call_api_fail_open (cache : Cache) (now : Int) (endpoint method : String)
    (data : List (String × PValue)) (use_cache : Bool) (tr : Transport) (err : ApiError)
    (herr : attempt_api tr = .error err)
    (hnet : (use_cache && (method == "POST")) = false ∨
            get_from_cache cache now (get_cache_key endpoint data) = none) :
    (call_api cache now endpoint method data use_cache tr).result =
      get_fallback_data endpoint data ∧
    (call_api cache now endpoint method data use_cache tr).cache = cache := by
  rcases hnet with h | h <;>
    simp [call_api, h, call_api_net, herr]

/-- Witness for C1: a timeout on `SearchFunds` resolves to the fallback. -/
theorem call_api_fail_open_witness :
    attempt_api Transport.netFail = .error ApiError.requestException ∧
    (call_api [] 0 "SearchFunds" "POST" [("keyword", PValue.str "ABC")] true
        Transport.netFail).result =
      get_fallback_data "SearchFunds" [("keyword", PValue.str "ABC")] :=
  ⟨rfl,
   (call_api_fail_open [] 0 "SearchFunds" "POST" [("keyword", PValue.str "ABC")] true
      Transport.netFail ApiError.requestException rfl (Or.inr rfl)).1⟩

/-- C2, counterexample.  A provider answering 200 with body
`{"success": false}` on `GetFundDiagnosis` is NOT routed to the fallback:
`_call_api` returns the raw body (the success indicator is never read)
and even caches it. -/
theorem success_false_not_fallback :
    (call_api [] 0 "GetFundDiagnosis" "POST" [("fundCode", PValue.str "Y1")] true
        (Transport.ok 200 (some (PValue.obj [("success", PValue.bool false)])))).result =
      PValue.obj [("success", PValue.bool false)] ∧
    (call_api [] 0 "GetFundDiagnosis" "POST" [("fundCode", PValue.str "Y1")] true
        (Transport.ok 200 (some (PValue.obj [("success", PValue.bool false)])))).result ≠
      get_fallback_data "GetFundDiagnosis" [("fundCode", PValue.str "Y1")] ∧
    (call_api [] 0 "GetFundDiagnosis" "POST" [("fundCode", PValue.str "Y1")] true
        (Transport.ok 200 (some (PValue.obj [("success", PValue.bool false)])))).cache ≠
      [] := by
  refine ⟨by decide, by decide, by decide⟩

/-- C2, amended.  On a 2xx/3xx status with a parseable JSON body,
`_call_api` returns the parsed body unchanged — whatever its success
indicator says — and (for a cached POST) stores that body in the cache;
only transport errors, `raise_for_status` errors and JSON parse failures
are routed to `_get_fallback_data`. -/
theorem call_api_returns_body_ignoring_success_flag (cache : Cache) (now : Int)
    (endpoint : String) (data : List (String × PValue)) (status : Nat) (body : PValue)
    (hst : raise_for_status status = false)
    (hmiss : get_from_cache cache now (get_cache_key endpoint data) = none) :
    (call_api cache now endpoint "POST" data true (Transport.ok status (some body))).result =
      body ∧
    (call_api cache now endpoint "POST" data true (Transport.ok status (some body))).cache =
      set_cache cache now (get_cache_key endpoint data) body := by
  constructor <;> simp [call_api, hmiss, call_api_net, attempt_api, hst]

/-- Witness for the amended C2: status 200, body `{"success": false}`. -/
theorem call_api_returns_body_ignoring_success_flag_witness :
    raise_for_status 200 = false ∧
    (call_api [] 0 "GetFundDiagnosis" "POST" [("fundCode", PValue.str "Y1")] true
        (Transport.ok 200 (some (PValue.obj [("success", PValue.bool false)])))).result =
      PValue.obj [("success", PValue.bool false)] :=
  ⟨rfl,
   (call_api_returns_body_ignoring_success_flag [] 0 "GetFundDiagnosis"
      [("fundCode", PValue.str "Y1")] 200 (PValue.obj [("success", PValue.bool false)])
      rfl rfl).1⟩

/-- C3, counterexample.  No result of the client carries a `degraded`
flag: the fallback payload has no `"degraded"` key (it is marked only by
`"success": false` and a fixed message), and a successful payload is the
raw provider body, to which no `"degraded": false` is added. -/
theorem degraded_flag_absent :
    obj_get "degraded" (get_fallback_data "SearchFunds" []) = none ∧
    obj_get "degraded"
      ((call_api [] 0 "SearchFunds" "POST" [("keyword", PValue.str "ABC")] true
          (Transport.ok 200 (some (PValue.obj
            [("success", PValue.bool true),
             ("data", PValue.list [PValue.obj [("fundCode", PValue.str "X1")]])])))).result) =
      none := by
  refine ⟨by decide, by decide⟩

/-- C3, amended.  Every failure path returns one fixed substitute payload
`{"success": false, "message": "API暂时不可用，显示模拟数据", "data": []}`;
it carries no `degraded` key, and successful payloads are returned
unchanged, so the caller distinguishes a placeholder only through the
`success`/`message` convention of this fixed dict, not through a
dedicated `degraded` flag. -/
theorem fallback_fixed_payload (endpoint : String) (params : List (String × PValue)) :
    get_fallback_data endpoint params =
      PValue.obj [("success", PValue.bool false),
                  ("message", PValue.str "API暂时不可用，显示模拟数据"),
                  ("data", PValue.list [])] ∧
    obj_get "degraded" (get_fallback_data endpoint params) = none ∧
    obj_get "success" (get_fallback_data endpoint params) = some (PValue.bool false) := by
  refine ⟨rfl, rfl, rfl⟩

/-- C5.  After a fetch that hit the network successfully and stored its
result (a cache miss at time `t1` with a non-raising transport), a second
fetch of the same endpoint and parameters with `use_cache` true at any
time `t2` with `0 ≤ t2 - t1 < TTL` returns the identical stored payload
and performs no network call (`netCalls = 0`), leaving the cache as it
was. -/
theorem cache_hit_avoids_network (cache : Cache) (t1 t2 : Int) (endpoint : String)
    (data : List (String × PValue)) (tr1 tr2 : Transport) (body : PValue)
    (hmiss : get_from_cache cache t1 (get_cache_key endpoint data) = none)
    (hok : attempt_api tr1 = .ok body)
    (_hage : 0 ≤ t2 - t1) (hfresh : t2 - t1 < cache_ttl) :
    (call_api (call_api cache t1 endpoint "POST" data true tr1).cache t2 endpoint "POST"
        data true tr2).result = (call_api cache t1 endpoint "POST" data true tr1).result ∧
    (call_api (call_api cache t1 endpoint "POST" data true tr1).cache t2 endpoint "POST"
        data true tr2).netCalls = 0 ∧
    (call_api (call_api cache t1 endpoint "POST" data true tr1).cache t2 endpoint "POST"
        data true tr2).cache = (call_api cache t1 endpoint "POST" data true tr1).cache := by
  have h1 : call_api cache t1 endpoint "POST" data true tr1 =
      ⟨body, set_cache cache t1 (get_cache_key endpoint data) body, 1⟩ := by
    simp [call_api, hmiss, call_api_net, hok]
  rw [h1]
  have h2 : get_from_cache (set_cache cache t1 (get_cache_key endpoint data) body) t2
      (get_cache_key endpoint data) = some body := by
    simp [get_from_cache, set_cache, dictGet_dictSet_self, hfresh]
  simp [call_api, h2]

/-- Witness for C5: store at time 0, re-read at time 299. -/
theorem cache_hit_avoids_network_witness :
    get_from_cache [] 0 (get_cache_key "SearchFunds" []) = none ∧
    attempt_api (Transport.ok 200 (some (PValue.obj []))) = .ok (PValue.obj []) ∧
    (0 : Int) ≤ 299 - 0 ∧ (299 : Int) - 0 < cache_ttl ∧
    (call_api (call_api [] 0 "SearchFunds" "POST" [] true
        (Transport.ok 200 (some (PValue.obj [])))).cache 299 "SearchFunds" "POST" [] true
        Transport.netFail).netCalls = 0 :=
  ⟨rfl, rfl, by decide, by decide,
   (cache_hit_avoids_network [] 0 299 "SearchFunds" []
      (Transport.ok 200 (some (PValue.obj []))) Transport.netFail (PValue.obj [])
      rfl rfl (by decide) (by decide)).2.1⟩

/-- C6.  A stored entry whose age has reached the TTL is treated as
absent by `_get_from_cache` (which is a pure reader: it takes the cache
and returns only an `Option`, deleting nothing); a fetch issued then
performs exactly one network call and, on success, overwrites the entry
in place with the new payload and a strictly later timestamp. -/
theorem ttl_expiry_forces_refetch (cache : Cache) (t0 now : Int) (endpoint : String)
    (data : List (String × PValue)) (d0 body : PValue) (tr : Transport)
    (hentry : dictGet (get_cache_key endpoint data) cache = some (d0, t0))
    (hexp : ¬ (now - t0 < cache_ttl))
    (hok : attempt_api tr = .ok body) :
    get_from_cache cache now (get_cache_key endpoint data) = none ∧
    (call_api cache now endpoint "POST" data true tr).netCalls = 1 ∧
    (call_api cache now endpoint "POST" data true tr).cache =
      dictSet (get_cache_key endpoint data) (body, now) cache ∧
    t0 < now := by
  have habs : get_from_cache cache now (get_cache_key endpoint data) = none := by
    simp [get_from_cache, hentry, hexp]
  refine ⟨habs, ?_, ?_, ?_⟩
  · simp [call_api, habs, call_api_net, hok]
  · simp [call_api, habs, call_api_net, hok, set_cache]
  · simp only [cache_ttl, not_lt] at hexp
    omega

/-- Witness for C6: entry stored at time 0, refetched at time 300. -/
theorem ttl_expiry_forces_refetch_witness :
    dictGet (get_cache_key "SearchFunds" []) [(get_cache_key "SearchFunds" [], (PValue.obj [], 0))] =
      some (PValue.obj [], 0) ∧
    ¬ ((300 : Int) - 0 < cache_ttl) ∧
    attempt_api (Transport.ok 200 (some (PValue.bool true))) = .ok (PValue.bool true) ∧
    (call_api [(get_cache_key "SearchFunds" [], (PValue.obj [], 0))] 300 "SearchFunds" "POST"
        [] true (Transport.ok 200 (some (PValue.bool true)))).netCalls = 1 :=
  ⟨by simp [dictGet], by decide, rfl,
   (ttl_expiry_forces_refetch [(get_cache_key "SearchFunds" [], (PValue.obj [], 0))] 0 300
      "SearchFunds" [] (PValue.obj []) (PValue.bool true)
      (Transport.ok 200 (some (PValue.bool true)))
      (by simp [dictGet]) (by decide) rfl).2.1⟩

/-- C7.  `_set_cache` is an unconditional upsert on the cache dict: the
written fingerprint maps to the new `(data, timestamp)` pair, every other
fingerprint is untouched, key-uniqueness is preserved, the written
fingerprint has exactly one entry afterwards (and every fingerprint at
most one), and a successful cached fetch writes its result under the
computed fingerprint with the current timestamp via exactly this upsert. -/
theorem set_cache_upsert (cache : Cache) (now : Int) (key : String) (data : PValue)
    (hnd : noDupKeys cache = true) :
    dictGet key (set_cache cache now key data) = some (data, now) ∧
    (∀ k2, k2 ≠ key → dictGet k2 (set_cache cache now key data) = dictGet k2 cache) ∧
    noDupKeys (set_cache cache now key data) = true ∧
    countKey key (set_cache cache now key data) = 1 ∧
    (∀ k2, countKey k2 (set_cache cache now key data) ≤ 1) ∧
    (∀ endpoint d tr body, attempt_api tr = Except.ok body →
      get_from_cache cache now (get_cache_key endpoint d) = none →
      (call_api cache now endpoint "POST" d true tr).cache =
        set_cache cache now (get_cache_key endpoint d) body) := by
  refine ⟨dictGet_dictSet_self key (data, now) cache,
    fun k2 h => dictGet_dictSet_ne key k2 h (data, now) cache,
    noDupKeys_dictSet key (data, now) cache hnd,
    countKey_dictSet_self key (data, now) cache hnd,
    fun k2 => noDupKeys_countKey_le_one k2 _ (noDupKeys_dictSet key (data, now) cache hnd),
    fun endpoint d tr body hok hmiss => ?_⟩
  simp [call_api, hmiss, call_api_net, hok]

/-- Witness for C7: overwrite of an existing entry in a two-entry cache. -/
theorem set_cache_upsert_witness :
    noDupKeys [("a", (PValue.int 1, (0 : Int))), ("b", (PValue.int 2, 0))] = true ∧
    dictGet "a" (set_cache [("a", (PValue.int 1, 0)), ("b", (PValue.int 2, 0))] 7 "a"
        (PValue.int 9)) = some (PValue.int 9, 7) :=
  ⟨by decide,
   (set_cache_upsert [("a", (PValue.int 1, 0)), ("b", (PValue.int 2, 0))] 7 "a"
      (PValue.int 9) (by decide)).1⟩

/-- C8, counterexample.  The response cache applies one and the same
expiry window to every endpoint: entries stored at time 0 for the
market-quote endpoint `GetLatestQuotations` and for the static
fund-metadata endpoint `BatchGetFundsDetail` are both still served at
age 299 and both expired at age 300 — the first does not expire sooner
than the second, contradicting a per-endpoint-category TTL. -/
theorem ttl_uniform_across_endpoints :
    (get_from_cache
        [(get_cache_key "GetLatestQuotations" [], (PValue.obj [], 0)),
         (get_cache_key "BatchGetFundsDetail" [("fundCodes", PValue.list [PValue.str "110011"])],
           (PValue.obj [], 0))] 299 (get_cache_key "GetLatestQuotations" [])).isSome = true ∧
    (get_from_cache
        [(get_cache_key "GetLatestQuotations" [], (PValue.obj [], 0)),
         (get_cache_key "BatchGetFundsDetail" [("fundCodes", PValue.list [PValue.str "110011"])],
           (PValue.obj [], 0))] 299
        (get_cache_key "BatchGetFundsDetail" [("fundCodes", PValue.list [PValue.str "110011"])])).isSome =
      true ∧
    get_from_cache
        [(get_cache_key "GetLatestQuotations" [], (PValue.obj [], 0)),
         (get_cache_key "BatchGetFundsDetail" [("fundCodes", PValue.list [PValue.str "110011"])],
           (PValue.obj [], 0))] 300 (get_cache_key "GetLatestQuotations" []) = none ∧
    get_from_cache
        [(get_cache_key "GetLatestQuotations" [], (PValue.obj [], 0)),
         (get_cache_key "BatchGetFundsDetail" [("fundCodes", PValue.list [PValue.str "110011"])],
           (PValue.obj [], 0))] 300
        (get_cache_key "BatchGetFundsDetail" [("fundCodes", PValue.list [PValue.str "110011"])]) =
      none := by
  refine ⟨by decide, by decide, by decide, by decide⟩

/-- C8, amended.  The TTL of the response cache (`self._cache`) is the
single global constant 300 seconds: expiry of any entry depends only on
its age, never on the endpoint.  Per-endpoint-category freshness exists
only in the separate Streamlit `@st.cache_data` memoisation decorators,
where the market-quote method `get_latest_quotations` uses ttl=60, a
materially shorter window than the 300 of the fund-metadata method
`get_funds_detail` (and 3600 of `search_hot_topic`). -/
theorem response_cache_ttl_global (cache : Cache) (now : Int) (key : String)
    (data : PValue) (ts : Int) (h : dictGet key cache = some (data, ts)) :
    cache_ttl = 300 ∧
    (get_from_cache cache now key = some data ↔ now - ts < 300) ∧
    st_cache_data_ttl "get_latest_quotations" = some 60 ∧
    st_cache_data_ttl "get_funds_detail" = some 300 ∧
    st_cache_data_ttl "search_hot_topic" = some 3600 ∧
    (60 : Nat) < 300 := by
  refine ⟨rfl, ?_, rfl, rfl, rfl, by decide⟩
  constructor
  · intro hs
    simp only [get_from_cache, h] at hs
    by_cases hc : now - ts < cache_ttl
    · simpa [cache_ttl] using hc
    · simp [hc] at hs
  · intro hlt
    simp [get_from_cache, h, cache_ttl, hlt]

/-- Witness for the amended C8. -/
theorem response_cache_ttl_global_witness :
    dictGet "k" [("k", (PValue.int 5, (0 : Int)))] = some (PValue.int 5, 0) ∧
    (get_from_cache [("k", (PValue.int 5, 0))] 299 "k" = some (PValue.int 5) ↔
      (299 : Int) - 0 < 300) :=
  ⟨by simp [dictGet],
   (response_cache_ttl_global [("k", (PValue.int 5, 0))] 299 "k" (PValue.int 5) 0
      (by simp [dictGet])).2.1⟩

/-- C9.  `get_funds_detail` silently truncates a list of more than 20
fund codes to its first 20 before issuing the API call (only a warning
is displayed; the function is total, no error is raised), and passes a
list of at most 20 codes through unchanged without a warning. -/
theorem get_funds_detail_truncates (fund_codes : List String)
    (h : 20 < fund_codes.length) :
    funds_detail_codes fund_codes = fund_codes.take 20 ∧
    (funds_detail_codes fund_codes).length = 20 ∧
    funds_detail_warns fund_codes = true ∧
    (∀ codes2 : List String, codes2.length ≤ 20 →
      funds_detail_codes codes2 = codes2 ∧ funds_detail_warns codes2 = false) ∧
    (∀ cache now tr, get_funds_detail cache now fund_codes tr =
      call_api cache now "BatchGetFundsDetail" "POST"
        [("fundCodes", PValue.list ((fund_codes.take 20).map PValue.str))] true tr) := by
  have hc : funds_detail_codes fund_codes = fund_codes.take 20 := by
    simp [funds_detail_codes, h]
  refine ⟨hc, ?_, by simp [funds_detail_warns, h], ?_, ?_⟩
  · rw [hc]
    simp
    omega
  · intro codes2 h2
    constructor
    · simp [funds_detail_codes]
      omega
    · simp [funds_detail_warns]
      omega
  · intro cache now tr
    rw [get_funds_detail, hc]

/-- Witness for C9: a list of 21 codes is cut to its first 20. -/
theorem get_funds_detail_truncates_witness :
    20 < (List.replicate 21 "110011").length ∧
    funds_detail_codes (List.replicate 21 "110011") = (List.replicate 21 "110011").take 20 :=
  ⟨by decide,
   (get_funds_detail_truncates (List.replicate 21 "110011") (by decide)).1⟩

/-- C10.  A `_call_api` with method `"GET"` neither consults nor modifies
the cache, whatever `use_cache` says: the cache afterwards is exactly the
cache before, the returned result does not depend on the cache contents
at all, and the single network call is always issued. -/
theorem get_method_bypasses_cache (cache cache2 : Cache) (now : Int) (endpoint : String)
    (data : List (String × PValue)) (use_cache : Bool) (tr : Transport) :
    (call_api cache now endpoint "GET" data use_cache tr).cache = cache ∧
    (call_api cache now endpoint "GET" data use_cache tr).result =
      (call_api cache2 now endpoint "GET" data use_cache tr).result ∧
    (call_api cache now endpoint "GET" data use_cache tr).netCalls = 1 := by
  have hm : (("GET" : String) == "POST") = false := by decide
  refine ⟨?_, ?_, ?_⟩ <;>
    · simp only [call_api, call_api_net, hm, Bool.and_false, Bool.false_eq_true, if_false]
      cases attempt_api tr <;> simp

/- ---------------------------------------------------------------------
Injectivity of the `json.dumps` model, part 1: the string-literal escape
`escC`/`escS` is uniquely decodable.  `unescC` is a decoder for one
escaped character; `unescC_escC` is the round trip, from which
prefix-cancellation of whole string literals follows.
--------------------------------------------------------------------- -/

/-- Every Unicode scalar value is below 0x110000 and outside the
surrogate block. -/
theorem char_toNat_valid (c : Char) :
    c.toNat < 1114112 ∧ ¬ (55296 ≤ c.toNat ∧ c.toNat ≤ 57343) := by
  have h := c.valid
  simp only [UInt32.isValidChar, Nat.isValidChar, Char.toNat] at h ⊢
  rcases h with h | ⟨h1, h2⟩ <;> omega

/-- Value of a lowercase hex digit character. -/
def hexVal (c : Char) : Option Nat :=
  if 48 ≤ c.toNat ∧ c.toNat ≤ 57 then some (c.toNat - 48)
  else if 97 ≤ c.toNat ∧ c.toNat ≤ 102 then some (c.toNat - 87)
  else none

theorem hexVal_hexDig (a : Nat) (h : a < 16) : hexVal (hexDig a) = some a := by
  interval_cases a <;> rfl

/-- Decode four hex digits into a code unit. -/
def hex4 : List Char → Option (Nat × List Char)
  | h1 :: h2 :: h3 :: h4 :: rest =>
    match hexVal h1, hexVal h2, hexVal h3, hexVal h4 with
    | some a, some b, some c, some d => some (4096 * a + 256 * b + 16 * c + d, rest)
    | _, _, _, _ => none
  | _ => none

theorem hex4_hexQuad (n : Nat) (h : n < 65536) (r : List Char) :
    hex4 (hexQuad n ++ r) = some (n, r) := by
  have h1 : n / 4096 % 16 < 16 := Nat.mod_lt _ (by omega)
  have h2 : n / 256 % 16 < 16 := Nat.mod_lt _ (by omega)
  have h3 : n / 16 % 16 < 16 := Nat.mod_lt _ (by omega)
  have h4 : n % 16 < 16 := Nat.mod_lt _ (by omega)
  simp only [hexQuad, List.cons_append, List.nil_append, hex4,
    hexVal_hexDig _ h1, hexVal_hexDig _ h2, hexVal_hexDig _ h3, hexVal_hexDig _ h4]
  congr 1
  have : 4096 * (n / 4096 % 16) + 256 * (n / 256 % 16) + 16 * (n / 16 % 16) + n % 16 = n := by
    omega
  rw [this]

/-- Decoder of one character of an escaped JSON string body. -/
def unescC : List Char → Option (Char × List Char)
  | [] => none
  | c :: rest =>
    if c = bs then
      match rest with
      | [] => none
      | e :: rest2 =>
        if e = qu then some (qu, rest2)
        else if e = bs then some (bs, rest2)
        else if e = 'b' then some (Char.ofNat 8, rest2)
        else if e = 't' then some (Char.ofNat 9, rest2)
        else if e = 'n' then some (Char.ofNat 10, rest2)
        else if e = 'f' then some (Char.ofNat 12, rest2)
        else if e = 'r' then some (Char.ofNat 13, rest2)
        else if e = 'u' then
          match hex4 rest2 with
          | some (m, rest3) =>
            if 55296 ≤ m ∧ m ≤ 56319 then
              match rest3 with
              | c2 :: e2 :: rest4 =>
                if c2 = bs ∧ e2 = 'u' then
                  match hex4 rest4 with
                  | some (m2, rest5) =>
                    some (Char.ofNat (65536 + (m - 55296) * 1024 + (m2 - 56320)), rest5)
                  | none => none
                else none
              | _ => none
            else some (Char.ofNat m, rest3)
          | none => none
        else none
    else some (c, rest)

theorem unescC_escC (c : Char) (r : List Char) : unescC (escC c ++ r) = some (c, r) := by
  have hval := char_toNat_valid c
  by_cases hq : c = qu
  · subst hq
    simp +decide [escC, unescC]
  by_cases hb : c = bs
  · subst hb
    simp +decide [escC, unescC, hq]
  by_cases hpr : 32 ≤ c.toNat ∧ c.toNat ≤ 126
  · have hpr2 : (32 ≤ c.toNat && c.toNat ≤ 126) = true := by
      simp [hpr.1, hpr.2]
    simp [escC, hq, hb, hpr2, unescC]
  have hpr2 : (32 ≤ c.toNat && c.toNat ≤ 126) = false := by
    rcases Decidable.not_and_iff_or_not.mp hpr with h | h <;> simp [Nat.not_le.mp h]
  by_cases h8 : c.toNat = 8
  · have : c = Char.ofNat 8 := by rw [← h8, Char.ofNat_toNat]
    subst this
    simp +decide [escC, unescC]
  by_cases h9 : c.toNat = 9
  · have : c = Char.ofNat 9 := by rw [← h9, Char.ofNat_toNat]
    subst this
    simp +decide [escC, unescC]
  by_cases h10 : c.toNat = 10
  · have : c = Char.ofNat 10 := by rw [← h10, Char.ofNat_toNat]
    subst this
    simp +decide [escC, unescC]
  by_cases h12 : c.toNat = 12
  · have : c = Char.ofNat 12 := by rw [← h12, Char.ofNat_toNat]
    subst this
    simp +decide [escC, unescC]
  by_cases h13 : c.toNat = 13
  · have : c = Char.ofNat 13 := by rw [← h13, Char.ofNat_toNat]
    subst this
    simp +decide [escC, unescC]
  by_cases hbmp : c.toNat < 65536
  · -- single `\uXXXX` escape; the code unit is never in the surrogate range
    have hesc : escC c = uEsc c.toNat := by
      simp [escC, hq, hb, hpr2, h8, h9, h10, h12, h13, hbmp]
    have hsur : ¬ (55296 ≤ c.toNat ∧ c.toNat ≤ 56319) := by
      rcases hval with ⟨_, hv2⟩
      omega
    rw [hesc]
    simp +decide [uEsc, unescC, hex4_hexQuad c.toNat hbmp, hsur, Char.ofNat_toNat]
  · -- surrogate pair
    have hesc : escC c =
        uEsc (55296 + (c.toNat - 65536) / 1024) ++ uEsc (56320 + (c.toNat - 65536) % 1024) := by
      simp [escC, hq, hb, hpr2, h8, h9, h10, h12, h13, hbmp]
    have hhi : 55296 + (c.toNat - 65536) / 1024 < 65536 := by
      rcases hval with ⟨hv1, _⟩
      omega
    have hlo : 56320 + (c.toNat - 65536) % 1024 < 65536 := by
      have := Nat.mod_lt (c.toNat - 65536) (y := 1024) (by omega)
      omega
    have hr1 : 55296 ≤ 55296 + (c.toNat - 65536) / 1024 := by omega
    have hr2 : 55296 + (c.toNat - 65536) / 1024 ≤ 56319 := by
      rcases hval with ⟨hv1, _⟩
      have : (c.toNat - 65536) / 1024 ≤ 1023 := by omega
      omega
    have harith : 65536 + (55296 + (c.toNat - 65536) / 1024 - 55296) * 1024 +
        (56320 + (c.toNat - 65536) % 1024 - 56320) = c.toNat := by omega
    rw [hesc]
    simp +decide [uEsc, unescC, List.append_assoc, hex4_hexQuad _ hhi, hex4_hexQuad _ hlo,
      hr1, hr2, harith, Char.ofNat_toNat]
    have harith2 : 65536 + (c.toNat - 65536) / 1024 * 1024 + (c.toNat - 65536) % 1024 =
        c.toNat := by omega
    rw [harith2, Char.ofNat_toNat]

/-- `escC` is prefix-cancellative. -/
theorem escC_cancel (c1 c2 : Char) (a b : List Char)
    (h : escC c1 ++ a = escC c2 ++ b) : c1 = c2 ∧ a = b := by
  have h1 := unescC_escC c1 a
  rw [h, unescC_escC c2 b] at h1
  obtain ⟨hc, hr⟩ := Prod.mk.injEq .. ▸ Option.some.inj h1
  exact ⟨hc.symm, hr.symm⟩

/-- The escape of a character never starts with an unescaped quote. -/
theorem escC_head_ne_qu (c : Char) : ∃ d t, escC c = d :: t ∧ d ≠ qu := by
  by_cases hq : c = qu
  · subst hq
    exact ⟨bs, [qu], rfl, by decide⟩
  by_cases hb : c = bs
  · subst hb
    exact ⟨bs, [bs], rfl, by decide⟩
  by_cases hpr : (32 ≤ c.toNat && c.toNat ≤ 126) = true
  · exact ⟨c, [], by simp [escC, hq, hb, hpr], hq⟩
  by_cases h8 : c.toNat = 8
  · exact ⟨bs, ['b'], by simp [escC, hq, hb, hpr, h8], by decide⟩
  by_cases h9 : c.toNat = 9
  · exact ⟨bs, ['t'], by simp [escC, hq, hb, hpr, h8, h9], by decide⟩
  by_cases h10 : c.toNat = 10
  · exact ⟨bs, ['n'], by simp [escC, hq, hb, hpr, h8, h9, h10], by decide⟩
  by_cases h12 : c.toNat = 12
  · exact ⟨bs, ['f'], by simp [escC, hq, hb, hpr, h8, h9, h10, h12], by decide⟩
  by_cases h13 : c.toNat = 13
  · exact ⟨bs, ['r'], by simp [escC, hq, hb, hpr, h8, h9, h10, h12, h13], by decide⟩
  by_cases hbmp : c.toNat < 65536
  · exact ⟨bs, 'u' :: hexQuad c.toNat,
      by simp [escC, hq, hb, hpr, h8, h9, h10, h12, h13, hbmp, uEsc], by decide⟩
  · exact ⟨bs, 'u' :: hexQuad (55296 + (c.toNat - 65536) / 1024) ++
        uEsc (56320 + (c.toNat - 65536) % 1024),
      by simp [escC, hq, hb, hpr, h8, h9, h10, h12, h13, hbmp, uEsc], by decide⟩

/-- A whole escaped string body followed by its closing quote is
uniquely decodable. -/
theorem escS_cancel : ∀ (s1 s2 : List Char) (r1 r2 : List Char),
    escS s1 ++ qu :: r1 = escS s2 ++ qu :: r2 → s1 = s2 ∧ r1 = r2
  | [], [], r1, r2 => by
    simp [escS]
  | [], c2 :: t2, r1, r2 => by
    intro h
    obtain ⟨d, t, hd, hne⟩ := escC_head_ne_qu c2
    simp only [escS, List.nil_append, hd, List.cons_append, List.append_assoc] at h
    exact absurd (List.head_eq_of_cons_eq h) (fun e => hne e.symm)
  | c1 :: t1, [], r1, r2 => by
    intro h
    obtain ⟨d, t, hd, hne⟩ := escC_head_ne_qu c1
    simp only [escS, List.nil_append, hd, List.cons_append, List.append_assoc] at h
    exact absurd (List.head_eq_of_cons_eq h) hne
  | c1 :: t1, c2 :: t2, r1, r2 => by
    intro h
    simp only [escS, List.append_assoc] at h
    obtain ⟨hc, ht⟩ := escC_cancel c1 c2 _ _ h
    obtain ⟨hs, hr⟩ := escS_cancel t1 t2 r1 r2 ht
    exact ⟨by rw [hc, hs], hr⟩

/-- JSON string literals are prefix-cancellative. -/
theorem encStr_cancel (s1 s2 : String) (a b : List Char)
    (h : encStr s1 ++ a = encStr s2 ++ b) : s1 = s2 ∧ a = b := by
  simp only [encStr, List.cons_append, List.append_assoc, List.singleton_append] at h
  have h2 := List.tail_eq_of_cons_eq h
  obtain ⟨hs, hr⟩ := escS_cancel s1.data s2.data a b h2
  exact ⟨String.ext hs, hr⟩

/- ---------------------------------------------------------------------
Injectivity of the `json.dumps` model, part 2: decimal numerals.
--------------------------------------------------------------------- -/

/-- Decimal digit character. -/
def isDigC (c : Char) : Bool := 48 ≤ c.toNat && c.toNat ≤ 57

theorem isDigC_hexDig (n : Nat) (h : n < 10) : isDigC (hexDig n) = true := by
  interval_cases n <;> decide

theorem hexDig_toNat_sub (m : Nat) (h : m < 10) : (hexDig m).toNat - 48 = m := by
  interval_cases m <;> decide

theorem natDec_head (n : Nat) : ∃ d t, natDec n = d :: t ∧ isDigC d = true := by
  induction n using Nat.strong_induction_on with
  | _ n ih =>
    rw [natDec_eq]
    by_cases h : n < 10
    · exact ⟨hexDig n, [], by simp [h], isDigC_hexDig n h⟩
    · obtain ⟨d, t, hd, hdig⟩ := ih (n / 10) (Nat.div_lt_self (by omega) (by omega))
      exact ⟨d, t ++ [hexDig (n % 10)], by simp [h, hd], hdig⟩

theorem natDec_digits (n : Nat) : ∀ c ∈ natDec n, isDigC c = true := by
  induction n using Nat.strong_induction_on with
  | _ n ih =>
    rw [natDec_eq]
    by_cases h : n < 10
    · simp [h, isDigC_hexDig n h]
    · intro c hc
      rw [if_neg h] at hc
      rcases List.mem_append.mp hc with hc2 | hc2
      · exact ih (n / 10) (Nat.div_lt_self (by omega) (by omega)) c hc2
      · rw [List.mem_singleton.mp hc2]
        exact isDigC_hexDig _ (Nat.mod_lt _ (by omega))

theorem natDec_foldl (n : Nat) : ∀ a : Nat,
    (natDec n).foldl (fun acc c => 10 * acc + (c.toNat - 48)) a =
      a * 10 ^ (natDec n).length + n := by
  induction n using Nat.strong_induction_on with
  | _ n ih =>
    intro a
    rw [natDec_eq]
    by_cases h : n < 10
    · rw [if_pos h]
      simp only [List.foldl_cons, List.foldl_nil, List.length_cons,
        List.length_nil, hexDig_toNat_sub n h, pow_one]
      omega
    · rw [if_neg h]
      simp only [List.foldl_append, List.foldl_cons, List.foldl_nil,
        List.length_append, List.length_cons, List.length_nil,
        hexDig_toNat_sub (n % 10) (Nat.mod_lt _ (by omega))]
      rw [ih (n / 10) (Nat.div_lt_self (by omega) (by omega)) a]
      rw [Nat.zero_add, pow_succ, ← mul_assoc]
      generalize a * 10 ^ (natDec (n / 10)).length = t
      omega

theorem natDec_inj (n1 n2 : Nat) (h : natDec n1 = natDec n2) : n1 = n2 := by
  have h1 := natDec_foldl n1 0
  have h2 := natDec_foldl n2 0
  rw [h] at h1
  rw [h2] at h1
  simp at h1
  exact h1.symm

/-- The first character of the remainder is not a digit. -/
def headNotDig : List Char → Prop
  | [] => True
  | c :: _ => isDigC c = false

theorem digits_cancel : ∀ (ds1 ds2 r1 r2 : List Char),
    (∀ c ∈ ds1, isDigC c = true) → (∀ c ∈ ds2, isDigC c = true) →
    headNotDig r1 → headNotDig r2 → ds1 ++ r1 = ds2 ++ r2 → ds1 = ds2 ∧ r1 = r2
  | [], [], r1, r2 => by
    intro _ _ _ _ h
    exact ⟨rfl, h⟩
  | [], d2 :: t2, r1, r2 => by
    intro _ hd2 hr1 _ h
    simp only [List.nil_append, List.cons_append] at h
    subst h
    simp only [headNotDig] at hr1
    exact absurd (hd2 d2 (by simp)) (by simp [hr1])
  | d1 :: t1, [], r1, r2 => by
    intro hd1 _ _ hr2 h
    simp only [List.nil_append, List.cons_append] at h
    rw [← h] at hr2
    simp only [headNotDig] at hr2
    exact absurd (hd1 d1 (by simp)) (by simp [hr2])
  | d1 :: t1, d2 :: t2, r1, r2 => by
    intro hd1 hd2 hr1 hr2 h
    simp only [List.cons_append] at h
    have hc := List.head_eq_of_cons_eq h
    obtain ⟨he, hr⟩ := digits_cancel t1 t2 r1 r2
      (fun c hc2 => hd1 c (by simp [hc2])) (fun c hc2 => hd2 c (by simp [hc2])) hr1 hr2
      (List.tail_eq_of_cons_eq h)
    exact ⟨by rw [hc, he], hr⟩

theorem natDec_cancel (n1 n2 : Nat) (r1 r2 : List Char)
    (h1 : headNotDig r1) (h2 : headNotDig r2)
    (h : natDec n1 ++ r1 = natDec n2 ++ r2) : n1 = n2 ∧ r1 = r2 := by
  obtain ⟨hd, hr⟩ := digits_cancel (natDec n1) (natDec n2) r1 r2
    (natDec_digits n1) (natDec_digits n2) h1 h2 h
  exact ⟨natDec_inj n1 n2 hd, hr⟩

/-- Characters that can follow a serialized value inside a larger
serialization: an item separator or a closing bracket. -/
def stop_char (c : Char) : Bool := c == ',' || c == ']' || c == '}'

/-- The remainder is empty or starts with a stop character. -/
def stop_rest : List Char → Prop
  | [] => True
  | c :: _ => stop_char c = true

theorem stop_char_not_dig (c : Char) (h : stop_char c = true) :
    isDigC c = false ∧ c ≠ '-' := by
  simp only [stop_char, Bool.or_eq_true, beq_iff_eq] at h
  rcases h with (h | h) | h <;> subst h <;> exact ⟨by decide, by decide⟩

theorem stop_rest_headNotDig (r : List Char) (h : stop_rest r) : headNotDig r := by
  cases r with
  | nil => trivial
  | cons c t => exact (stop_char_not_dig c h).1

theorem intDec_cancel (i1 i2 : Int) (r1 r2 : List Char)
    (h1 : stop_rest r1) (h2 : stop_rest r2)
    (h : intDec i1 ++ r1 = intDec i2 ++ r2) : i1 = i2 ∧ r1 = r2 := by
  by_cases hn1 : i1 < 0 <;> by_cases hn2 : i2 < 0
  · simp only [intDec, if_pos hn1, if_pos hn2, List.cons_append] at h
    obtain ⟨hv, hr⟩ := natDec_cancel _ _ r1 r2
      (stop_rest_headNotDig r1 h1) (stop_rest_headNotDig r2 h2)
      (List.tail_eq_of_cons_eq h)
    exact ⟨by omega, hr⟩
  · simp only [intDec, if_pos hn1, if_neg hn2, List.cons_append] at h
    obtain ⟨d, t, hd, hdig⟩ := natDec_head i2.toNat
    simp only [hd, List.cons_append] at h
    rw [← List.head_eq_of_cons_eq h] at hdig
    exact absurd hdig (by decide)
  · simp only [intDec, if_neg hn1, if_pos hn2, List.cons_append] at h
    obtain ⟨d, t, hd, hdig⟩ := natDec_head i1.toNat
    simp only [hd, List.cons_append] at h
    rw [List.head_eq_of_cons_eq h] at hdig
    exact absurd hdig (by decide)
  · simp only [intDec, if_neg hn1, if_neg hn2] at h
    obtain ⟨hv, hr⟩ := natDec_cancel _ _ r1 r2
      (stop_rest_headNotDig r1 h1) (stop_rest_headNotDig r2 h2) h
    exact ⟨by omega, hr⟩

/- ---------------------------------------------------------------------
Injectivity of the `json.dumps` model, part 3: the first character of a
serialization determines the constructor.
--------------------------------------------------------------------- -/

/-- Constructor tag. -/
def vclass : PValue → Nat
  | .str _ => 0
  | .int _ => 1
  | .bool _ => 2
  | .list _ => 3
  | .obj _ => 4

/-- Class of a first character. -/
def classOf (c : Char) : Nat :=
  if c = qu then 0
  else if c = '-' ∨ isDigC c = true then 1
  else if c = 't' ∨ c = 'f' then 2
  else if c = '[' then 3
  else if c = '{' then 4
  else 5

theorem classOf_digit (c : Char) (h : isDigC c = true) : classOf c = 1 := by
  have hq : c ≠ qu := by
    intro e
    rw [e] at h
    exact absurd h (by decide)
  simp [classOf, hq, h]

theorem vclass_le (v : PValue) : vclass v ≤ 4 := by
  cases v <;> simp [vclass]

theorem encV_head_class (v : PValue) : ∃ c t, encV v = c :: t ∧ classOf c = vclass v := by
  cases v with
  | str s => exact ⟨qu, escS s.data ++ [qu], rfl, by simp [classOf, vclass]⟩
  | int i =>
    by_cases h : i < 0
    · refine ⟨'-', natDec (-i).toNat, ?_, by simp +decide [classOf, vclass]⟩
      simp [encV, intDec, h]
    · obtain ⟨d, t, hd, hdig⟩ := natDec_head i.toNat
      refine ⟨d, t, ?_, by rw [classOf_digit d hdig, vclass]⟩
      simp [encV, intDec, h, hd]
  | bool b =>
    cases b
    · exact ⟨'f', ['a', 'l', 's', 'e'], rfl, by simp +decide [classOf, vclass]⟩
    · exact ⟨'t', ['r', 'u', 'e'], rfl, by simp +decide [classOf, vclass]⟩
  | list xs => exact ⟨'[', encItems xs ++ [']'], rfl, by simp +decide [classOf, vclass]⟩
  | obj kvs => exact ⟨'{', encFields kvs ++ ['}'], rfl, by simp +decide [classOf, vclass]⟩

/-- Two serializations that agree on a common extension have the same
constructor. -/
theorem head_class_eq (v1 v2 : PValue) (r1 r2 : List Char)
    (h : encV v1 ++ r1 = encV v2 ++ r2) : vclass v1 = vclass v2 := by
  obtain ⟨c1, t1, he1, hc1⟩ := encV_head_class v1
  obtain ⟨c2, t2, he2, hc2⟩ := encV_head_class v2
  rw [he1, he2] at h
  simp only [List.cons_append] at h
  rw [← hc1, ← hc2, List.head_eq_of_cons_eq h]

/-- No serialization starts with a stop character. -/
theorem encV_head_not_stop (v : PValue) (c : Char) (t : List Char)
    (he : encV v = c :: t) (hs : stop_char c = true) : False := by
  obtain ⟨c2, t2, he2, hc2⟩ := encV_head_class v
  rw [he2] at he
  have hcc := List.head_eq_of_cons_eq he
  rw [hcc] at hc2
  have h5 : classOf c = 5 := by
    simp only [stop_char, Bool.or_eq_true, beq_iff_eq] at hs
    rcases hs with (h | h) | h <;> subst h <;> decide
  have := vclass_le v
  omega

/- ---------------------------------------------------------------------
Injectivity of the `json.dumps` model, part 4: serializations are
prefix-cancellative (hence injective).
--------------------------------------------------------------------- -/

theorem stop_rest_cons (c : Char) (t : List Char) (h : stop_char c = true) :
    stop_rest (c :: t) := h

theorem encItems_head (v : PValue) (t : List PValue) :
    ∃ s, encItems (v :: t) = encV v ++ s := by
  cases t with
  | nil => exact ⟨[], by simp [encItems]⟩
  | cons w vs => exact ⟨',' :: ' ' :: encItems (w :: vs), rfl⟩

theorem encFields_head (k : String) (v : PValue) (t : List (String × PValue)) :
    ∃ s, encFields ((k, v) :: t) = encStr k ++ s := by
  cases t with
  | nil => exact ⟨':' :: ' ' :: encV v, rfl⟩
  | cons f fs =>
    exact ⟨':' :: ' ' :: (encV v ++ ',' :: ' ' :: encFields (f :: fs)),
      by simp [encFields, List.append_assoc]⟩

mutual

theorem encV_cancel : ∀ (v1 v2 : PValue) (r1 r2 : List Char),
    stop_rest r1 → stop_rest r2 →
    encV v1 ++ r1 = encV v2 ++ r2 → v1 = v2 ∧ r1 = r2
  | .str s1, .str s2, r1, r2 => fun _ _ he => by
    simp only [encV] at he
    obtain ⟨hs, hr⟩ := encStr_cancel s1 s2 r1 r2 he
    exact ⟨by rw [hs], hr⟩
  | .int i1, .int i2, r1, r2 => fun h1 h2 he => by
    simp only [encV] at he
    obtain ⟨hi, hr⟩ := intDec_cancel i1 i2 r1 r2 h1 h2 he
    exact ⟨by rw [hi], hr⟩
  | .bool b1, .bool b2, r1, r2 => fun _ _ he => by
    cases b1 <;> cases b2 <;> simp only [encV, ite_true, ite_false, List.cons_append] at he
    · exact ⟨rfl, by simpa using he⟩
    · simp at he
    · simp at he
    · exact ⟨rfl, by simpa using he⟩
  | .list xs1, .list xs2, r1, r2 => fun _ _ he => by
    simp only [encV, List.cons_append, List.append_assoc, List.singleton_append] at he
    obtain ⟨hx, hr⟩ := encItems_cancel xs1 xs2 r1 r2 (List.tail_eq_of_cons_eq he)
    exact ⟨by rw [hx], hr⟩
  | .obj f1, .obj f2, r1, r2 => fun _ _ he => by
    simp only [encV, List.cons_append, List.append_assoc, List.singleton_append] at he
    obtain ⟨hf, hr⟩ := encFields_cancel f1 f2 r1 r2 (List.tail_eq_of_cons_eq he)
    exact ⟨by rw [hf], hr⟩
  | .str _, .int _, r1, r2 => fun _ _ he => by
    have := head_class_eq _ _ _ _ he
    simp [vclass] at this
  | .str _, .bool _, r1, r2 => fun _ _ he => by
    have := head_class_eq _ _ _ _ he
    simp [vclass] at this
  | .str _, .list _, r1, r2 => fun _ _ he => by
    have := head_class_eq _ _ _ _ he
    simp [vclass] at this
  | .str _, .obj _, r1, r2 => fun _ _ he => by
    have := head_class_eq _ _ _ _ he
    simp [vclass] at this
  | .int _, .str _, r1, r2 => fun _ _ he => by
    have := head_class_eq _ _ _ _ he
    simp [vclass] at this
  | .int _, .bool _, r1, r2 => fun _ _ he => by
    have := head_class_eq _ _ _ _ he
    simp [vclass] at this
  | .int _, .list _, r1, r2 => fun _ _ he => by
    have := head_class_eq _ _ _ _ he
    simp [vclass] at this
  | .int _, .obj _, r1, r2 => fun _ _ he => by
    have := head_class_eq _ _ _ _ he
    simp [vclass] at this
  | .bool _, .str _, r1, r2 => fun _ _ he => by
    have := head_class_eq _ _ _ _ he
    simp [vclass] at this
  | .bool _, .int _, r1, r2 => fun _ _ he => by
    have := head_class_eq _ _ _ _ he
    simp [vclass] at this
  | .bool _, .list _, r1, r2 => fun _ _ he => by
    have := head_class_eq _ _ _ _ he
    simp [vclass] at this
  | .bool _, .obj _, r1, r2 => fun _ _ he => by
    have := head_class_eq _ _ _ _ he
    simp [vclass] at this
  | .list _, .str _, r1, r2 => fun _ _ he => by
    have := head_class_eq _ _ _ _ he
    simp [vclass] at this
  | .list _, .int _, r1, r2 => fun _ _ he => by
    have := head_class_eq _ _ _ _ he
    simp [vclass] at this
  | .list _, .bool _, r1, r2 => fun _ _ he => by
    have := head_class_eq _ _ _ _ he
    simp [vclass] at this
  | .list _, .obj _, r1, r2 => fun _ _ he => by
    have := head_class_eq _ _ _ _ he
    simp [vclass] at this
  | .obj _, .str _, r1, r2 => fun _ _ he => by
    have := head_class_eq _ _ _ _ he
    simp [vclass] at this
  | .obj _, .int _, r1, r2 => fun _ _ he => by
    have := head_class_eq _ _ _ _ he
    simp [vclass] at this
  | .obj _, .bool _, r1, r2 => fun _ _ he => by
    have := head_class_eq _ _ _ _ he
    simp [vclass] at this
  | .obj _, .list _, r1, r2 => fun _ _ he => by
    have := head_class_eq _ _ _ _ he
    simp [vclass] at this

theorem encItems_cancel : ∀ (xs1 xs2 : List PValue) (r1 r2 : List Char),
    encItems xs1 ++ ']' :: r1 = encItems xs2 ++ ']' :: r2 → xs1 = xs2 ∧ r1 = r2
  | [], [], r1, r2 => fun he => by
    simp only [encItems, List.nil_append] at he
    exact ⟨rfl, List.tail_eq_of_cons_eq he⟩
  | [], v :: t, r1, r2 => fun he => by
    obtain ⟨s, hs⟩ := encItems_head v t
    rw [hs] at he
    simp only [List.nil_append, List.append_assoc] at he
    obtain ⟨c, t2, hc, _⟩ := encV_head_class v
    rw [hc] at he
    simp only [List.cons_append] at he
    have hc2 := List.head_eq_of_cons_eq he
    exact (encV_head_not_stop v c t2 hc (by rw [← hc2]; decide)).elim
  | v :: t, [], r1, r2 => fun he => by
    obtain ⟨s, hs⟩ := encItems_head v t
    rw [hs] at he
    simp only [List.nil_append, List.append_assoc] at he
    obtain ⟨c, t2, hc, _⟩ := encV_head_class v
    rw [hc] at he
    simp only [List.cons_append] at he
    have hc2 := List.head_eq_of_cons_eq he
    exact (encV_head_not_stop v c t2 hc (by rw [hc2]; decide)).elim
  | [v1], [v2], r1, r2 => fun he => by
    simp only [encItems] at he
    obtain ⟨hv, hr⟩ := encV_cancel v1 v2 (']' :: r1) (']' :: r2)
      (stop_rest_cons _ _ (by decide)) (stop_rest_cons _ _ (by decide)) he
    exact ⟨by rw [hv], List.tail_eq_of_cons_eq hr⟩
  | [v1], v2 :: w2 :: t2, r1, r2 => fun he => by
    simp only [encItems, List.cons_append, List.append_assoc] at he
    obtain ⟨hv, hr⟩ := encV_cancel v1 v2 (']' :: r1) _
      (stop_rest_cons _ _ (by decide)) (stop_rest_cons _ _ (by decide)) he
    exact absurd (List.head_eq_of_cons_eq hr) (by decide)
  | v1 :: w1 :: t1, [v2], r1, r2 => fun he => by
    simp only [encItems, List.cons_append, List.append_assoc] at he
    obtain ⟨hv, hr⟩ := encV_cancel v1 v2 _ (']' :: r2)
      (stop_rest_cons _ _ (by decide)) (stop_rest_cons _ _ (by decide)) he
    exact absurd (List.head_eq_of_cons_eq hr) (by decide)
  | v1 :: w1 :: t1, v2 :: w2 :: t2, r1, r2 => fun he => by
    simp only [encItems, List.cons_append, List.append_assoc] at he
    obtain ⟨hv, hr⟩ := encV_cancel v1 v2 _ _
      (stop_rest_cons _ _ (by decide)) (stop_rest_cons _ _ (by decide)) he
    have hr2 := List.tail_eq_of_cons_eq (List.tail_eq_of_cons_eq hr)
    obtain ⟨ht, hr3⟩ := encItems_cancel (w1 :: t1) (w2 :: t2) r1 r2 hr2
    exact ⟨by rw [hv, ht], hr3⟩

theorem encFields_cancel : ∀ (fs1 fs2 : List (String × PValue)) (r1 r2 : List Char),
    encFields fs1 ++ '}' :: r1 = encFields fs2 ++ '}' :: r2 → fs1 = fs2 ∧ r1 = r2
  | [], [], r1, r2 => fun he => by
    simp only [encFields, List.nil_append] at he
    exact ⟨rfl, List.tail_eq_of_cons_eq he⟩
  | [], (k, v) :: t, r1, r2 => fun he => by
    obtain ⟨s, hs⟩ := encFields_head k v t
    rw [hs] at he
    simp only [List.nil_append, List.append_assoc, encStr, List.cons_append] at he
    exact absurd (List.head_eq_of_cons_eq he) (by decide)
  | (k, v) :: t, [], r1, r2 => fun he => by
    obtain ⟨s, hs⟩ := encFields_head k v t
    rw [hs] at he
    simp only [List.nil_append, List.append_assoc, encStr, List.cons_append] at he
    exact absurd (List.head_eq_of_cons_eq he) (by decide)
  | [(k1, v1)], [(k2, v2)], r1, r2 => fun he => by
    simp only [encFields, List.cons_append, List.append_assoc] at he
    obtain ⟨hk, hr⟩ := encStr_cancel k1 k2 _ _ he
    have hr2 := List.tail_eq_of_cons_eq (List.tail_eq_of_cons_eq hr)
    obtain ⟨hv, hr3⟩ := encV_cancel v1 v2 ('}' :: r1) ('}' :: r2)
      (stop_rest_cons _ _ (by decide)) (stop_rest_cons _ _ (by decide)) hr2
    exact ⟨by rw [hk, hv], List.tail_eq_of_cons_eq hr3⟩
  | [(k1, v1)], (k2, v2) :: g2 :: t2, r1, r2 => fun he => by
    simp only [encFields, List.cons_append, List.append_assoc] at he
    obtain ⟨hk, hr⟩ := encStr_cancel k1 k2 _ _ he
    have hr2 := List.tail_eq_of_cons_eq (List.tail_eq_of_cons_eq hr)
    obtain ⟨hv, hr3⟩ := encV_cancel v1 v2 ('}' :: r1) _
      (stop_rest_cons _ _ (by decide)) (stop_rest_cons _ _ (by decide)) hr2
    exact absurd (List.head_eq_of_cons_eq hr3) (by decide)
  | (k1, v1) :: g1 :: t1, [(k2, v2)], r1, r2 => fun he => by
    simp only [encFields, List.cons_append, List.append_assoc] at he
    obtain ⟨hk, hr⟩ := encStr_cancel k1 k2 _ _ he
    have hr2 := List.tail_eq_of_cons_eq (List.tail_eq_of_cons_eq hr)
    obtain ⟨hv, hr3⟩ := encV_cancel v1 v2 _ ('}' :: r2)
      (stop_rest_cons _ _ (by decide)) (stop_rest_cons _ _ (by decide)) hr2
    exact absurd (List.head_eq_of_cons_eq hr3) (by decide)
  | (k1, v1) :: g1 :: t1, (k2, v2) :: g2 :: t2, r1, r2 => fun he => by
    simp only [encFields, List.cons_append, List.append_assoc] at he
    obtain ⟨hk, hr⟩ := encStr_cancel k1 k2 _ _ he
    have hr2 := List.tail_eq_of_cons_eq (List.tail_eq_of_cons_eq hr)
    obtain ⟨hv, hr3⟩ := encV_cancel v1 v2 _ _
      (stop_rest_cons _ _ (by decide)) (stop_rest_cons _ _ (by decide)) hr2
    have hr4 := List.tail_eq_of_cons_eq (List.tail_eq_of_cons_eq hr3)
    obtain ⟨ht, hr5⟩ := encFields_cancel (g1 :: t1) (g2 :: t2) r1 r2 hr4
    exact ⟨by rw [hk, hv, ht], hr5⟩

end

/- ---------------------------------------------------------------------
Association-list machinery: lookup, membership, permutations, sorting.
--------------------------------------------------------------------- -/

theorem hasKey_iff_mem_keys (k : String) (l : List (String × α)) :
    hasKey k l = true ↔ k ∈ l.map Prod.fst := by
  induction l with
  | nil => simp [hasKey]
  | cons p rest ih =>
    obtain ⟨k2, v2⟩ := p
    simp only [hasKey, Bool.or_eq_true, beq_iff_eq, ih, List.map_cons, List.mem_cons]
    constructor
    · rintro (h | h)
      · exact Or.inl h.symm
      · exact Or.inr h
    · rintro (h | h)
      · exact Or.inl h.symm
      · exact Or.inr h

theorem hasKey_exists_mem (k : String) (l : List (String × α)) (h : hasKey k l = true) :
    ∃ v, (k, v) ∈ l := by
  induction l with
  | nil => simp [hasKey] at h
  | cons p rest ih =>
    obtain ⟨k2, v2⟩ := p
    simp only [hasKey, Bool.or_eq_true, beq_iff_eq] at h
    rcases h with h | h
    · exact ⟨v2, by simp [h]⟩
    · obtain ⟨v, hv⟩ := ih h
      exact ⟨v, List.mem_cons_of_mem _ hv⟩

theorem hasKey_of_mem (k : String) (v : α) (l : List (String × α)) (h : (k, v) ∈ l) :
    hasKey k l = true := by
  induction l with
  | nil => simp at h
  | cons p rest ih =>
    rcases List.mem_cons.mp h with h2 | h2
    · rw [← h2]
      simp [hasKey]
    · obtain ⟨k2, v2⟩ := p
      simp [hasKey, ih h2]

theorem dictGet_none_iff (k : String) (l : List (String × α)) :
    dictGet k l = none ↔ hasKey k l = false := by
  induction l with
  | nil => simp [dictGet, hasKey]
  | cons p rest ih =>
    obtain ⟨k2, v2⟩ := p
    by_cases h : k2 = k <;> simp [dictGet, hasKey, h, ih]

theorem dictGet_mem (k : String) (v : α) (l : List (String × α))
    (h : dictGet k l = some v) : (k, v) ∈ l := by
  induction l with
  | nil => simp [dictGet] at h
  | cons p rest ih =>
    obtain ⟨k2, v2⟩ := p
    by_cases h2 : k2 = k
    · subst h2
      simp only [dictGet, if_pos rfl, ite_true, Option.some.injEq] at h
      subst h
      exact List.mem_cons_self _ _
    · simp only [dictGet, if_neg h2] at h
      simp [ih h]

theorem dictGet_hasKey (k : String) (v : α) (l : List (String × α))
    (h : dictGet k l = some v) : hasKey k l = true :=
  hasKey_of_mem k v l (dictGet_mem k v l h)

theorem mem_dictGet (k : String) (v : α) (l : List (String × α))
    (hnd : noDupKeys l = true) (h : (k, v) ∈ l) : dictGet k l = some v := by
  induction l with
  | nil => simp at h
  | cons p rest ih =>
    obtain ⟨k2, v2⟩ := p
    simp only [noDupKeys, Bool.and_eq_true, Bool.not_eq_true'] at hnd
    rcases List.mem_cons.mp h with h2 | h2
    · obtain ⟨hk, hv⟩ := Prod.mk.injEq .. ▸ h2
      subst hk
      simp [dictGet, hv.symm]
    · have hne : k2 ≠ k := by
        intro e
        subst e
        rw [hasKey_of_mem k2 v rest h2] at hnd
        exact absurd hnd.1 (by simp)
      simp [dictGet, hne, ih hnd.2 h2]

theorem noDupKeys_iff (l : List (String × α)) :
    noDupKeys l = true ↔ (l.map Prod.fst).Nodup := by
  induction l with
  | nil => simp [noDupKeys]
  | cons p rest ih =>
    obtain ⟨k2, v2⟩ := p
    simp only [noDupKeys, Bool.and_eq_true, Bool.not_eq_true', List.map_cons,
      List.nodup_cons, ih]
    constructor
    · rintro ⟨h1, h2⟩
      refine ⟨fun hm => ?_, h2⟩
      rw [← hasKey_iff_mem_keys] at hm
      rw [hm] at h1
      simp at h1
    · rintro ⟨h1, h2⟩
      refine ⟨?_, h2⟩
      by_cases hk : hasKey k2 rest = true
      · exact absurd ((hasKey_iff_mem_keys _ _).mp hk) h1
      · simpa using hk

theorem noDupKeys_perm (l1 l2 : List (String × α)) (h : l1.Perm l2)
    (hnd : noDupKeys l1 = true) : noDupKeys l2 = true := by
  rw [noDupKeys_iff] at hnd ⊢
  exact ((h.map Prod.fst).nodup_iff).mp hnd

theorem dictGet_perm (l1 l2 : List (String × α)) (h : l1.Perm l2)
    (hnd : noDupKeys l1 = true) (k : String) : dictGet k l1 = dictGet k l2 := by
  have hnd2 := noDupKeys_perm l1 l2 h hnd
  cases hv : dictGet k l1 with
  | some v =>
    exact (mem_dictGet k v l2 hnd2 (h.mem_iff.mp (dictGet_mem k v l1 hv))).symm
  | none =>
    have hk1 : hasKey k l1 = false := (dictGet_none_iff k l1).mp hv
    have hk2 : hasKey k l2 = false := by
      by_cases h2 : hasKey k l2 = true
      · obtain ⟨v, hm⟩ := hasKey_exists_mem k l2 h2
        rw [hasKey_of_mem k v l1 (h.mem_iff.mpr hm)] at hk1
        simp at hk1
      · simpa using h2
    exact ((dictGet_none_iff k l2).mpr hk2).symm

theorem hasKey_append (k : String) (p q : List (String × α)) :
    hasKey k (p ++ q) = (hasKey k p || hasKey k q) := by
  induction p with
  | nil => simp [hasKey]
  | cons x rest ih =>
    obtain ⟨k2, v2⟩ := x
    simp [hasKey, ih, Bool.or_assoc]

theorem dictGet_split (k : String) (v : α) (l : List (String × α))
    (h : dictGet k l = some v) :
    ∃ p q, l = p ++ (k, v) :: q ∧ hasKey k p = false := by
  induction l with
  | nil => simp [dictGet] at h
  | cons x rest ih =>
    obtain ⟨k2, v2⟩ := x
    by_cases h2 : k2 = k
    · subst h2
      simp only [dictGet, if_pos rfl, ite_true, Option.some.injEq] at h
      exact ⟨[], rest, by simp [h], rfl⟩
    · simp only [dictGet, if_neg h2] at h
      obtain ⟨p, q, hl, hp⟩ := ih h
      refine ⟨(k2, v2) :: p, q, by simp [hl], ?_⟩
      simp [hasKey, hp, h2]

theorem noDupKeys_middle (p q : List (String × α)) (x : String × α)
    (h : noDupKeys (p ++ x :: q) = true) :
    noDupKeys (p ++ q) = true ∧ hasKey x.1 q = false := by
  induction p with
  | nil =>
    obtain ⟨k, v⟩ := x
    simp only [List.nil_append, noDupKeys, Bool.and_eq_true, Bool.not_eq_true'] at h
    exact ⟨h.2, h.1⟩
  | cons y rest ih =>
    obtain ⟨k2, v2⟩ := y
    simp only [List.cons_append, List.append_eq, noDupKeys, Bool.and_eq_true,
      Bool.not_eq_true'] at h
    obtain ⟨hni, hk⟩ := ih h.2
    refine ⟨?_, hk⟩
    simp only [List.cons_append, List.append_eq, noDupKeys, Bool.and_eq_true,
      Bool.not_eq_true']
    refine ⟨?_, hni⟩
    have h1 := h.1
    rw [hasKey_append] at h1 ⊢
    rcases Bool.or_eq_false_iff.mp h1 with ⟨ha, hb⟩
    obtain ⟨kx, vx⟩ := x
    have hx : hasKey k2 ((kx, vx) :: q) = ((kx == k2) || hasKey k2 q) := rfl
    rw [hx] at hb
    rcases Bool.or_eq_false_iff.mp hb with ⟨hb1, hb2⟩
    simp [ha, hb2]

theorem dictGet_append_middle_ne (k k2 : String) (v : α) (p q : List (String × α))
    (hne : k ≠ k2) : dictGet k2 (p ++ (k, v) :: q) = dictGet k2 (p ++ q) := by
  induction p with
  | nil => simp [dictGet, hne]
  | cons x rest ih =>
    obtain ⟨k3, v3⟩ := x
    by_cases h3 : k3 = k2 <;> simp [dictGet, h3, ih]

theorem dictGet_append_absent (k : String) (p q : List (String × α))
    (hp : hasKey k p = false) (hq : hasKey k q = false) :
    dictGet k (p ++ q) = none := by
  rw [dictGet_none_iff, hasKey_append, hp, hq]
  rfl

/-- Two association lists with pairwise distinct keys and the same lookup
function are permutations of each other. -/
theorem assoc_perm_of_dictGet_eq : ∀ (l1 l2 : List (String × α)),
    noDupKeys l1 = true → noDupKeys l2 = true →
    (∀ k, dictGet k l1 = dictGet k l2) → l1.Perm l2
  | [], l2 => fun _ hnd2 hget => by
    cases l2 with
    | nil => exact List.Perm.refl []
    | cons x rest =>
      obtain ⟨k, v⟩ := x
      have := hget k
      simp [dictGet] at this
  | (k, v) :: t, l2 => fun hnd1 hnd2 hget => by
    have hv : dictGet k l2 = some v := by
      rw [← hget k]
      simp [dictGet]
    obtain ⟨p, q, hl2, hp⟩ := dictGet_split k v l2 hv
    subst hl2
    obtain ⟨hndpq, hq⟩ := noDupKeys_middle p q (k, v) hnd2
    simp only [noDupKeys, Bool.and_eq_true, Bool.not_eq_true'] at hnd1
    have htail : ∀ k2, dictGet k2 t = dictGet k2 (p ++ q) := by
      intro k2
      by_cases he : k = k2
      · subst he
        rw [(dictGet_none_iff k t).mpr hnd1.1, dictGet_append_absent k p q hp hq]
      · have h1 : dictGet k2 ((k, v) :: t) = dictGet k2 t := by
          simp [dictGet, he]
        rw [← h1, hget k2, dictGet_append_middle_ne k k2 v p q he]
    have hperm := assoc_perm_of_dictGet_eq t (p ++ q) hnd1.2 hndpq htail
    exact (List.Perm.cons (k, v) hperm).trans List.perm_middle.symm

/- ---------------------------------------------------------------------
Sorting by keys.
--------------------------------------------------------------------- -/

instance fieldKeyLeTotal : IsTotal (String × PValue) (fun a b => a.1 ≤ b.1) :=
  ⟨fun a b => le_total a.1 b.1⟩

instance fieldKeyLeTrans : IsTrans (String × PValue) (fun a b => a.1 ≤ b.1) :=
  ⟨fun _ _ _ h1 h2 => le_trans h1 h2⟩

instance fieldKeyLtAntisymm : IsAntisymm (String × PValue) (fun a b => a.1 < b.1) :=
  ⟨fun _ _ h1 h2 => absurd (lt_trans h1 h2) (lt_irrefl _)⟩

theorem sortFields_perm (l : List (String × PValue)) : (sortFields l).Perm l :=
  List.perm_insertionSort _ l

theorem sortFields_sorted (l : List (String × PValue)) :
    List.Sorted (fun a b : String × PValue => a.1 ≤ b.1) (sortFields l) :=
  List.sorted_insertionSort _ l

theorem sortFields_sorted_lt (l : List (String × PValue)) (h : noDupKeys l = true) :
    List.Sorted (fun a b : String × PValue => a.1 < b.1) (sortFields l) := by
  have hs := sortFields_sorted l
  have hnd : noDupKeys (sortFields l) = true :=
    noDupKeys_perm l (sortFields l) (sortFields_perm l).symm h
  have hkeys : ((sortFields l).map Prod.fst).Nodup := (noDupKeys_iff _).mp hnd
  have hne : List.Pairwise (fun a b : String × PValue => a.1 ≠ b.1) (sortFields l) :=
    List.pairwise_map.mp hkeys
  exact (hs.and hne).imp (fun h2 => lt_of_le_of_ne h2.1 h2.2)

theorem sortFields_eq_of_perm (l1 l2 : List (String × PValue)) (h : l1.Perm l2)
    (hnd : noDupKeys l1 = true) : sortFields l1 = sortFields l2 := by
  have hnd2 := noDupKeys_perm l1 l2 h hnd
  exact List.eq_of_perm_of_sorted
    ((sortFields_perm l1).trans (h.trans (sortFields_perm l2).symm))
    (sortFields_sorted_lt l1 hnd) (sortFields_sorted_lt l2 hnd2)

/- ---------------------------------------------------------------------
Canonicalization and Python equality: supporting lemmas.
--------------------------------------------------------------------- -/

theorem canonFields_keys (l : List (String × PValue)) :
    (canonFields l).map Prod.fst = l.map Prod.fst := by
  induction l with
  | nil => rfl
  | cons p rest ih =>
    obtain ⟨k, v⟩ := p
    simp [canonFields, ih]

theorem canonFields_length (l : List (String × PValue)) :
    (canonFields l).length = l.length := by
  induction l with
  | nil => rfl
  | cons p rest ih =>
    obtain ⟨k, v⟩ := p
    simp [canonFields, ih]

theorem hasKey_canonFields (k : String) (l : List (String × PValue)) :
    hasKey k (canonFields l) = hasKey k l := by
  induction l with
  | nil => rfl
  | cons p rest ih =>
    obtain ⟨k2, v⟩ := p
    simp [canonFields, hasKey, ih]

theorem noDupKeys_canonFields (l : List (String × PValue)) (h : noDupKeys l = true) :
    noDupKeys (canonFields l) = true := by
  rw [noDupKeys_iff, canonFields_keys]
  exact (noDupKeys_iff l).mp h

theorem dictGet_canonFields (k : String) (l : List (String × PValue)) :
    dictGet k (canonFields l) = (dictGet k l).map canon := by
  induction l with
  | nil => rfl
  | cons p rest ih =>
    obtain ⟨k2, v⟩ := p
    by_cases h : k2 = k <;> simp [canonFields, dictGet, h, ih]

theorem wfFieldsB_mem (a : List (String × PValue)) (k : String) (v : PValue)
    (h : wfFieldsB a = true) (hm : (k, v) ∈ a) : wfB v = true := by
  induction a with
  | nil => simp at hm
  | cons p rest ih =>
    obtain ⟨k2, v2⟩ := p
    simp only [wfFieldsB, Bool.and_eq_true] at h
    rcases List.mem_cons.mp hm with h2 | h2
    · obtain ⟨_, hv⟩ := Prod.ext_iff.mp h2
      rw [show v = v2 from hv]
      exact h.1
    · exact ih h.2 h2

theorem jsonEqFieldsB_lookup : ∀ (a b : List (String × PValue)), jsonEqFieldsB a b = true →
    ∀ k v, (k, v) ∈ a → ∃ w, dictGet k b = some w ∧ jsonEqB v w = true := by
  intro a
  induction a with
  | nil =>
    intro b h k v hm
    simp at hm
  | cons p rest ih =>
    obtain ⟨k2, v2⟩ := p
    intro b h k v hm
    simp only [jsonEqFieldsB, Bool.and_eq_true] at h
    rcases List.mem_cons.mp hm with h2 | h2
    · obtain ⟨hk, hv⟩ := Prod.ext_iff.mp h2
      subst hk
      cases hd : dictGet k b with
      | none =>
        rw [hd] at h
        exact absurd h.1 (by simp)
      | some w =>
        rw [hd] at h
        exact ⟨w, rfl, by rw [show v = v2 from hv]; exact h.1⟩
    · exact ih b h.2 k v h2

theorem jsonEqFieldsB_of_forall : ∀ (a b : List (String × PValue)),
    (∀ k v, (k, v) ∈ a → ∃ w, dictGet k b = some w ∧ jsonEqB v w = true) →
    jsonEqFieldsB a b = true := by
  intro a
  induction a with
  | nil => intro b _; rfl
  | cons p rest ih =>
    obtain ⟨k2, v2⟩ := p
    intro b h
    obtain ⟨w, hw, hpy⟩ := h k2 v2 (by simp)
    simp only [jsonEqFieldsB, Bool.and_eq_true, hw]
    exact ⟨hpy, ih b (fun k v hm => h k v (List.mem_cons_of_mem _ hm))⟩

theorem jsonEqFieldsB_hasKey_sub (a b : List (String × PValue))
    (h : jsonEqFieldsB a b = true) : ∀ k, hasKey k a = true → hasKey k b = true := by
  intro k hk
  obtain ⟨v, hm⟩ := hasKey_exists_mem k a hk
  obtain ⟨w, hw, _⟩ := jsonEqFieldsB_lookup a b h k v hm
  exact dictGet_hasKey k w b hw

theorem hasKey_sub_rev (a b : List (String × PValue)) (hna : noDupKeys a = true)
    (hlen : a.length = b.length)
    (hsub : ∀ k, hasKey k a = true → hasKey k b = true) :
    ∀ k, hasKey k b = true → hasKey k a = true := by
  have hka : (a.map Prod.fst).Nodup := (noDupKeys_iff a).mp hna
  have hsub2 : a.map Prod.fst ⊆ b.map Prod.fst := by
    intro k hk
    exact (hasKey_iff_mem_keys k b).mp (hsub k ((hasKey_iff_mem_keys k a).mpr hk))
  have hsp := List.subperm_of_subset hka hsub2
  have hperm := hsp.perm_of_length_le (by simp [hlen])
  intro k hk
  exact (hasKey_iff_mem_keys k a).mpr (hperm.mem_iff.mpr ((hasKey_iff_mem_keys k b).mp hk))

/- ---------------------------------------------------------------------
Python-equal values have identical canonical forms, and conversely.
--------------------------------------------------------------------- -/

mutual

theorem canon_eq_of_jsonEq : ∀ (v1 v2 : PValue), wfB v1 = true → wfB v2 = true →
    jsonEqB v1 v2 = true → canon v1 = canon v2
  | .str a, .str b => fun _ _ h => by
    simp only [jsonEqB, beq_iff_eq] at h
    rw [h]
  | .int a, .int b => fun _ _ h => by
    simp only [jsonEqB, beq_iff_eq] at h
    rw [h]
  | .bool a, .bool b => fun _ _ h => by
    simp only [jsonEqB, beq_iff_eq] at h
    rw [h]
  | .list a, .list b => fun h1 h2 h => by
    simp only [wfB] at h1 h2
    simp only [jsonEqB] at h
    simp only [canon, canonList_eq_of_jsonEq a b h1 h2 h]
  | .obj a, .obj b => fun h1 h2 h => by
    simp only [wfB, Bool.and_eq_true] at h1 h2
    simp only [jsonEqB, Bool.and_eq_true, beq_iff_eq] at h
    have hget : ∀ k, dictGet k (canonFields a) = dictGet k (canonFields b) := by
      intro k
      by_cases hk : hasKey k a = true
      · exact canonFields_get_eq a b h1.2 h2.2 h1.1 h.2 k hk
      · have hka : hasKey k a = false := by simpa using hk
        have hkb : hasKey k b = false := by
          by_cases hkb2 : hasKey k b = true
          · rw [hasKey_sub_rev a b h1.1 h.1 (jsonEqFieldsB_hasKey_sub a b h.2) k hkb2] at hka
            simp at hka
          · simpa using hkb2
        rw [(dictGet_none_iff _ _).mpr (by rw [hasKey_canonFields]; exact hka),
            (dictGet_none_iff _ _).mpr (by rw [hasKey_canonFields]; exact hkb)]
    have hperm := assoc_perm_of_dictGet_eq (canonFields a) (canonFields b)
      (noDupKeys_canonFields a h1.1) (noDupKeys_canonFields b h2.1) hget
    simp only [canon]
    rw [sortFields_eq_of_perm _ _ hperm (noDupKeys_canonFields a h1.1)]
  | .str _, .int _ => fun _ _ h => by simp [jsonEqB] at h
  | .str _, .bool _ => fun _ _ h => by simp [jsonEqB] at h
  | .str _, .list _ => fun _ _ h => by simp [jsonEqB] at h
  | .str _, .obj _ => fun _ _ h => by simp [jsonEqB] at h
  | .int _, .str _ => fun _ _ h => by simp [jsonEqB] at h
  | .int _, .bool _ => fun _ _ h => by simp [jsonEqB] at h
  | .int _, .list _ => fun _ _ h => by simp [jsonEqB] at h
  | .int _, .obj _ => fun _ _ h => by simp [jsonEqB] at h
  | .bool _, .str _ => fun _ _ h => by simp [jsonEqB] at h
  | .bool _, .int _ => fun _ _ h => by simp [jsonEqB] at h
  | .bool _, .list _ => fun _ _ h => by simp [jsonEqB] at h
  | .bool _, .obj _ => fun _ _ h => by simp [jsonEqB] at h
  | .list _, .str _ => fun _ _ h => by simp [jsonEqB] at h
  | .list _, .int _ => fun _ _ h => by simp [jsonEqB] at h
  | .list _, .bool _ => fun _ _ h => by simp [jsonEqB] at h
  | .list _, .obj _ => fun _ _ h => by simp [jsonEqB] at h
  | .obj _, .str _ => fun _ _ h => by simp [jsonEqB] at h
  | .obj _, .int _ => fun _ _ h => by simp [jsonEqB] at h
  | .obj _, .bool _ => fun _ _ h => by simp [jsonEqB] at h
  | .obj _, .list _ => fun _ _ h => by simp [jsonEqB] at h

theorem canonList_eq_of_jsonEq : ∀ (a b : List PValue), wfListB a = true → wfListB b = true →
    jsonEqListB a b = true → canonList a = canonList b
  | [], [] => fun _ _ _ => rfl
  | [], _ :: _ => fun _ _ h => by simp [jsonEqListB] at h
  | _ :: _, [] => fun _ _ h => by simp [jsonEqListB] at h
  | x :: xs, y :: ys => fun h1 h2 h => by
    simp only [wfListB, Bool.and_eq_true] at h1 h2
    simp only [jsonEqListB, Bool.and_eq_true] at h
    simp only [canonList, canon_eq_of_jsonEq x y h1.1 h2.1 h.1,
      canonList_eq_of_jsonEq xs ys h1.2 h2.2 h.2]

theorem canonFields_get_eq : ∀ (a b : List (String × PValue)),
    wfFieldsB a = true → wfFieldsB b = true → noDupKeys a = true →
    jsonEqFieldsB a b = true →
    ∀ k, hasKey k a = true → dictGet k (canonFields a) = dictGet k (canonFields b)
  | [], _ => fun _ _ _ _ k hk => by simp [hasKey] at hk
  | (k0, v0) :: t, b => fun h1 h2 hnd hpy k hk => by
    simp only [wfFieldsB, Bool.and_eq_true] at h1
    simp only [noDupKeys, Bool.and_eq_true, Bool.not_eq_true'] at hnd
    simp only [jsonEqFieldsB, Bool.and_eq_true] at hpy
    by_cases he : k0 = k
    · subst he
      cases hd : dictGet k0 b with
      | none =>
        rw [hd] at hpy
        exact absurd hpy.1 (by simp)
      | some w =>
        rw [hd] at hpy
        have hw : wfB w = true := wfFieldsB_mem b k0 w h2 (dictGet_mem _ _ _ hd)
        have hc := canon_eq_of_jsonEq v0 w h1.1 hw hpy.1
        rw [dictGet_canonFields, dictGet_canonFields, hd]
        simp [dictGet, hc]
    · have hkt : hasKey k t = true := by
        simp only [hasKey, Bool.or_eq_true, beq_iff_eq] at hk
        rcases hk with h | h
        · exact absurd h he
        · exact h
      have hrec := canonFields_get_eq t b h1.2 h2 hnd.2 hpy.2 k hkt
      simpa [canonFields, dictGet, he] using hrec

end

mutual

theorem jsonEq_of_canon_eq : ∀ (v1 v2 : PValue), wfB v1 = true → wfB v2 = true →
    canon v1 = canon v2 → jsonEqB v1 v2 = true
  | .str a, .str b => fun _ _ h => by
    simp only [canon, PValue.str.injEq] at h
    simp [jsonEqB, h]
  | .int a, .int b => fun _ _ h => by
    simp only [canon, PValue.int.injEq] at h
    simp [jsonEqB, h]
  | .bool a, .bool b => fun _ _ h => by
    simp only [canon, PValue.bool.injEq] at h
    simp [jsonEqB, h]
  | .list a, .list b => fun h1 h2 h => by
    simp only [canon, PValue.list.injEq] at h
    simp only [wfB] at h1 h2
    simpa only [jsonEqB] using jsonEqListB_of_canon a b h1 h2 h
  | .obj a, .obj b => fun h1 h2 h => by
    simp only [canon, PValue.obj.injEq] at h
    simp only [wfB, Bool.and_eq_true] at h1 h2
    have hnca := noDupKeys_canonFields a h1.1
    have hncb := noDupKeys_canonFields b h2.1
    have hgetc : ∀ k, dictGet k (canonFields a) = dictGet k (canonFields b) := by
      intro k
      rw [dictGet_perm (canonFields a) (sortFields (canonFields a))
          (sortFields_perm _).symm hnca k, h]
      exact dictGet_perm (sortFields (canonFields b)) (canonFields b) (sortFields_perm _)
        (noDupKeys_perm _ _ (sortFields_perm (canonFields b)).symm hncb) k
    have hlen : a.length = b.length := by
      have e1 : (sortFields (canonFields a)).length = (sortFields (canonFields b)).length := by
        rw [h]
      rw [(sortFields_perm (canonFields a)).length_eq,
          (sortFields_perm (canonFields b)).length_eq,
          canonFields_length, canonFields_length] at e1
      exact e1
    simp only [jsonEqB, Bool.and_eq_true, beq_iff_eq]
    exact ⟨hlen, jsonEqFieldsB_of_canon a b h1.2 h2.2 h1.1 (fun k _ => hgetc k)⟩
  | .str _, .int _ => fun _ _ h => by simp [canon] at h
  | .str _, .bool _ => fun _ _ h => by simp [canon] at h
  | .str _, .list _ => fun _ _ h => by simp [canon] at h
  | .str _, .obj _ => fun _ _ h => by simp [canon] at h
  | .int _, .str _ => fun _ _ h => by simp [canon] at h
  | .int _, .bool _ => fun _ _ h => by simp [canon] at h
  | .int _, .list _ => fun _ _ h => by simp [canon] at h
  | .int _, .obj _ => fun _ _ h => by simp [canon] at h
  | .bool _, .str _ => fun _ _ h => by simp [canon] at h
  | .bool _, .int _ => fun _ _ h => by simp [canon] at h
  | .bool _, .list _ => fun _ _ h => by simp [canon] at h
  | .bool _, .obj _ => fun _ _ h => by simp [canon] at h
  | .list _, .str _ => fun _ _ h => by simp [canon] at h
  | .list _, .int _ => fun _ _ h => by simp [canon] at h
  | .list _, .bool _ => fun _ _ h => by simp [canon] at h
  | .list _, .obj _ => fun _ _ h => by simp [canon] at h
  | .obj _, .str _ => fun _ _ h => by simp [canon] at h
  | .obj _, .int _ => fun _ _ h => by simp [canon] at h
  | .obj _, .bool _ => fun _ _ h => by simp [canon] at h
  | .obj _, .list _ => fun _ _ h => by simp [canon] at h

theorem jsonEqListB_of_canon : ∀ (a b : List PValue), wfListB a = true → wfListB b = true →
    canonList a = canonList b → jsonEqListB a b = true
  | [], [] => fun _ _ _ => rfl
  | [], _ :: _ => fun _ _ h => by simp [canonList] at h
  | _ :: _, [] => fun _ _ h => by simp [canonList] at h
  | x :: xs, y :: ys => fun h1 h2 h => by
    simp only [canonList, List.cons.injEq] at h
    simp only [wfListB, Bool.and_eq_true] at h1 h2
    simp only [jsonEqListB, Bool.and_eq_true]
    exact ⟨jsonEq_of_canon_eq x y h1.1 h2.1 h.1, jsonEqListB_of_canon xs ys h1.2 h2.2 h.2⟩

theorem jsonEqFieldsB_of_canon : ∀ (a b : List (String × PValue)),
    wfFieldsB a = true → wfFieldsB b = true → noDupKeys a = true →
    (∀ k, hasKey k a = true → dictGet k (canonFields a) = dictGet k (canonFields b)) →
    jsonEqFieldsB a b = true
  | [], _ => fun _ _ _ _ => rfl
  | (k0, v0) :: t, b => fun h1 h2 hnda hget => by
    simp only [wfFieldsB, Bool.and_eq_true] at h1
    simp only [noDupKeys, Bool.and_eq_true, Bool.not_eq_true'] at hnda
    have hgv := hget k0 (by simp [hasKey])
    rw [dictGet_canonFields, dictGet_canonFields] at hgv
    have hg1 : dictGet k0 ((k0, v0) :: t) = some v0 := by simp [dictGet]
    rw [hg1] at hgv
    cases hd : dictGet k0 b with
    | none =>
      rw [hd] at hgv
      simp at hgv
    | some w =>
      rw [hd] at hgv
      simp only [Option.map_some', Option.some.injEq] at hgv
      have hw : wfB w = true := wfFieldsB_mem b k0 w h2 (dictGet_mem _ _ _ hd)
      have hpy := jsonEq_of_canon_eq v0 w h1.1 hw hgv
      simp only [jsonEqFieldsB, Bool.and_eq_true, hd]
      refine ⟨hpy, jsonEqFieldsB_of_canon t b h1.2 h2 hnda.2 ?_⟩
      intro k hkt
      have hne : k0 ≠ k := by
        intro e
        subst e
        rw [hkt] at hnda
        exact absurd hnda.1 (by simp)
      have hga := hget k (by simp [hasKey, hkt])
      simpa [canonFields, dictGet, hne] using hga

end

/- ---------------------------------------------------------------------
Claim C4: the request fingerprint.
--------------------------------------------------------------------- -/

mutual

/-- JSON-document equality is stronger than Python `==`: the Python
relation keeps every identification of `jsonEqB` and adds the
cross-type numeric ones. -/
theorem pyEq_of_jsonEq : ∀ (v1 v2 : PValue), jsonEqB v1 v2 = true → pyEqB v1 v2 = true
  | .str _, .str _ => fun h => h
  | .int _, .int _ => fun h => h
  | .bool _, .bool _ => fun h => h
  | .list a, .list b => fun h => by
    simp only [jsonEqB] at h
    simpa only [pyEqB] using pyEqList_of_jsonEqList a b h
  | .obj a, .obj b => fun h => by
    simp only [jsonEqB, Bool.and_eq_true] at h
    simp only [pyEqB, Bool.and_eq_true]
    exact ⟨h.1, pyEqFields_of_jsonEqFields a b h.2⟩
  | .str _, .int _ => fun h => by simp [jsonEqB] at h
  | .str _, .bool _ => fun h => by simp [jsonEqB] at h
  | .str _, .list _ => fun h => by simp [jsonEqB] at h
  | .str _, .obj _ => fun h => by simp [jsonEqB] at h
  | .int _, .str _ => fun h => by simp [jsonEqB] at h
  | .int _, .bool _ => fun h => by simp [jsonEqB] at h
  | .int _, .list _ => fun h => by simp [jsonEqB] at h
  | .int _, .obj _ => fun h => by simp [jsonEqB] at h
  | .bool _, .str _ => fun h => by simp [jsonEqB] at h
  | .bool _, .int _ => fun h => by simp [jsonEqB] at h
  | .bool _, .list _ => fun h => by simp [jsonEqB] at h
  | .bool _, .obj _ => fun h => by simp [jsonEqB] at h
  | .list _, .str _ => fun h => by simp [jsonEqB] at h
  | .list _, .int _ => fun h => by simp [jsonEqB] at h
  | .list _, .bool _ => fun h => by simp [jsonEqB] at h
  | .list _, .obj _ => fun h => by simp [jsonEqB] at h
  | .obj _, .str _ => fun h => by simp [jsonEqB] at h
  | .obj _, .int _ => fun h => by simp [jsonEqB] at h
  | .obj _, .bool _ => fun h => by simp [jsonEqB] at h
  | .obj _, .list _ => fun h => by simp [jsonEqB] at h

theorem pyEqList_of_jsonEqList : ∀ (a b : List PValue),
    jsonEqListB a b = true → pyEqListB a b = true
  | [], [] => fun _ => rfl
  | [], _ :: _ => fun h => by simp [jsonEqListB] at h
  | _ :: _, [] => fun h => by simp [jsonEqListB] at h
  | x :: xs, y :: ys => fun h => by
    simp only [jsonEqListB, Bool.and_eq_true] at h
    simp only [pyEqListB, Bool.and_eq_true]
    exact ⟨pyEq_of_jsonEq x y h.1, pyEqList_of_jsonEqList xs ys h.2⟩

theorem pyEqFields_of_jsonEqFields : ∀ (a b : List (String × PValue)),
    jsonEqFieldsB a b = true → pyEqFieldsB a b = true
  | [], _ => fun _ => rfl
  | (k, v) :: t, b => fun h => by
    simp only [jsonEqFieldsB, Bool.and_eq_true] at h
    simp only [pyEqFieldsB, Bool.and_eq_true]
    refine ⟨?_, pyEqFields_of_jsonEqFields t b h.2⟩
    cases hd : dictGet k b with
    | none =>
      rw [hd] at h
      exact absurd h.1 (by simp)
    | some w =>
      rw [hd] at h
      simp only [hd]
      exact pyEq_of_jsonEq v w h.1

end

/-- C4, counterexample.  Fingerprint equality is NOT equivalent to
semantic (Python `==`) request equality: `{"isDesc": True}` and
`{"isDesc": 1}` are equal Python mappings (`True == 1` in Python), both
well formed, yet `json.dumps` writes `true` for one and `1` for the
other, so `_get_cache_key` gives them distinct fingerprints — the
right-to-left direction of the claimed iff fails in the program.
(Float parameters, passed at real call sites but outside the model,
fail the same way: `0.0 == -0.0` yet dumps writes `0.0` vs `-0.0`,
and `1 == 1.0` dumps as `1` vs `1.0`.) -/
theorem py_equal_mappings_distinct_fingerprint :
    wfB (.obj [("isDesc", PValue.bool true)]) = true ∧
    wfB (.obj [("isDesc", PValue.int 1)]) = true ∧
    pyEqB (.obj [("isDesc", PValue.bool true)]) (.obj [("isDesc", PValue.int 1)]) = true ∧
    get_cache_key "BatchGetFundNavHistory" [("isDesc", PValue.bool true)] ≠
      get_cache_key "BatchGetFundNavHistory" [("isDesc", PValue.int 1)] := by
  refine ⟨by decide, by decide, by decide, by decide⟩

/-- C4, amended.  `_get_cache_key` fingerprints the JSON document of a
request, not its Python-`==` class: for any endpoint, two parameter
dicts (with the pairwise-distinct keys every Python dict has) share a
fingerprint exactly when they serialize to the same JSON document — the
same key/value sets regardless of insertion order at every nesting
level, with JSON-typed values (`true` and `1` distinct).  In particular
permuting parameters never changes the fingerprint and changing one
parameter value to a non-document-equal one always does; and equal
fingerprints still imply Python-equal mappings — only the converse of
the original iff fails, exactly on cross-type-equal values. -/
theorem fingerprint_iff_json_doc_eq (endpoint : String) (p1 p2 : List (String × PValue))
    (h1 : wfB (.obj p1) = true) (h2 : wfB (.obj p2) = true) :
    (get_cache_key endpoint p1 = get_cache_key endpoint p2 ↔
      jsonEqB (.obj p1) (.obj p2) = true) ∧
    (get_cache_key endpoint p1 = get_cache_key endpoint p2 →
      pyEqB (.obj p1) (.obj p2) = true) := by
  have hiff : get_cache_key endpoint p1 = get_cache_key endpoint p2 ↔
      jsonEqB (.obj p1) (.obj p2) = true := by
    constructor
    · intro h
      have hd : (get_cache_key endpoint p1).data = (get_cache_key endpoint p2).data := by
        rw [h]
      simp only [get_cache_key, json_dumps_sorted, String.data_append] at hd
      have henc := List.append_cancel_left hd
      have hcanon := (encV_cancel (canon (.obj p1)) (canon (.obj p2)) [] [] trivial trivial
        (by simpa using henc)).1
      exact jsonEq_of_canon_eq (.obj p1) (.obj p2) h1 h2 hcanon
    · intro h
      have hc := canon_eq_of_jsonEq (.obj p1) (.obj p2) h1 h2 h
      simp only [get_cache_key, json_dumps_sorted]
      rw [hc]
  exact ⟨hiff, fun h => pyEq_of_jsonEq _ _ (hiff.mp h)⟩

/-- Witness for the amended C4: two insertion orders of the same
parameters share a fingerprint; the conclusion is obtained through the
theorem itself. -/
theorem fingerprint_iff_json_doc_eq_witness :
    wfB (.obj [("keyword", PValue.str "ABC"), ("page", PValue.int 0)]) = true ∧
    wfB (.obj [("page", PValue.int 0), ("keyword", PValue.str "ABC")]) = true ∧
    get_cache_key "SearchFunds" [("keyword", PValue.str "ABC"), ("page", PValue.int 0)] =
      get_cache_key "SearchFunds" [("page", PValue.int 0), ("keyword", PValue.str "ABC")] :=
  ⟨by decide, by decide,
   (fingerprint_iff_json_doc_eq "SearchFunds"
      [("keyword", PValue.str "ABC"), ("page", PValue.int 0)]
      [("page", PValue.int 0), ("keyword", PValue.str "ABC")]
      (by decide) (by decide)).1.mpr (by decide)⟩

end Mcp
